import Mathlib

/-!
# Lab8 — memory-partition simulator (`list.c`, `mmu.c`)

A shallow embedding of the block lists of `list.c` and of the three operations of
`mmu.c` (`allocate_memory`, `deallocate_memory`, `coalese_memory`) together with the
command loop of `main`.

Modelling conventions.

* A `list_t` is a Lean `List Block`; a `node_t *` into a list is the pair of the
  node's position and the block it carries.
* A C `int` is a Lean `Int`.  Signed overflow is undefined in C, so every statement
  below speaks about executions in which no intermediate value leaves the `int`
  range; every concrete input used below is a 32-bit value and overflow free.
* `mmu.c` contains its own definition of `list_add_ascending_by_address`
  (lines 46-49) whose body calls itself.  Inside `mmu.c` the calls of
  `allocate_memory` and `coalese_memory` bind to that definition.  It is modelled
  with a call-depth bound (`fuel`): `none` means "has not returned within the bound".
  The definition of the same name in `list.c` (lines 121-137) is modelled as
  `list_add_ascending_by_address`.
* `allocate_memory_with`, `coalese_memory_with` and `main_loop_with` are the same
  functions with that callee left open.  Statements about what a completed allocation
  or coalesce leaves behind are made for every callee; their examples are runs in
  which the call returns, with the callee of `list.c` (`list_c_add`).
-/

namespace Lab8

/-! ## Data model -/

/-- The record `block_t`: the interval `[start, end]` and its owner (`0` = free). -/
structure Block where
  start : Int
  «end» : Int
  pid : Int
deriving DecidableEq, Repr

/-- The expression `blk->end - blk->start + 1` used throughout both files. -/
def blockSize (b : Block) : Int := b.«end» - b.start + 1

/-! ## `list.c` -/

/-- Function `list_add_to_back` (list.c 88-95): walk to the last node and append. -/
def list_add_to_back : List Block → Block → List Block
  | [], blk => [blk]
  | cur :: rest, blk => cur :: list_add_to_back rest blk

/-- Function `list_add_to_front` (list.c 98-103). -/
def list_add_to_front (l : List Block) (blk : Block) : List Block := blk :: l

/-- Function `list_add_ascending_by_address` (list.c 121-137): advance while
`blk->start > cur->blk->start`, then link the new node in front of `cur`. -/
def list_add_ascending_by_address : List Block → Block → List Block
  | [], blk => [blk]
  | cur :: rest, blk =>
    if blk.start > cur.start then cur :: list_add_ascending_by_address rest blk
    else blk :: cur :: rest

/-- Function `list_add_ascending_by_blocksize` (list.c 140-159): advance until
`newsz < csz`, then link the new node in front of `cur`. -/
def list_add_ascending_by_blocksize : List Block → Block → List Block
  | [], newblk => [newblk]
  | cur :: rest, newblk =>
    if blockSize newblk < blockSize cur then newblk :: cur :: rest
    else cur :: list_add_ascending_by_blocksize rest newblk

/-- Function `list_add_descending_by_blocksize` (list.c 162-181): advance until
`newsz > csz`, then link the new node in front of `cur`. -/
def list_add_descending_by_blocksize : List Block → Block → List Block
  | [], blk => [blk]
  | cur :: rest, blk =>
    if blockSize blk > blockSize cur then blk :: cur :: rest
    else cur :: list_add_descending_by_blocksize rest blk

/-- Function `list_remove_from_front` (list.c 207-214): the detached block (or `none` for
`NULL`) and the remaining list. -/
def list_remove_from_front : List Block → Option Block × List Block
  | [] => (none, [])
  | b :: rest => (some b, rest)

/-- Function `list_remove_node` (list.c 308-324): unlink the node at the given position;
a node that is not in the list leaves the list as it is. -/
def list_remove_node : List Block → Nat → List Block
  | [], _ => []
  | _ :: rest, 0 => rest
  | cur :: rest, i + 1 => cur :: list_remove_node rest i

/-- The merge test of `list_coalese_nodes` (list.c 357). -/
def mergeable (a b : Block) : Prop := a.«end» + 1 = b.start ∧ a.pid = 0 ∧ b.pid = 0

instance (a b : Block) : Decidable (mergeable a b) := by
  unfold mergeable; infer_instance

/-- The loop of `list_coalese_nodes` (list.c 355-366) with `cur` the current node
and the list argument the chain `cur->next`: on a merge `cur` is extended and kept
(`continue`), otherwise the loop advances to `nxt`. -/
def coalese_loop : Block → List Block → List Block
  | cur, [] => [cur]
  | cur, nxt :: rest =>
    if mergeable cur nxt then coalese_loop { cur with «end» := nxt.«end» } rest
    else cur :: coalese_loop nxt rest

/-- Function `list_coalese_nodes` (list.c 352-367). -/
def list_coalese_nodes : List Block → List Block
  | [] => []
  | head :: rest => coalese_loop head rest

/-! ## `mmu.c` -/

/-- The definition of `list_add_ascending_by_address` in mmu.c (46-49): both
arguments are non-null, so the guard falls through to the call of the function
itself with the same arguments.  `fuel` bounds the depth of calls. -/
def mmu_list_add_ascending_by_address : Nat → List Block → Block → Option (List Block)
  | 0, _, _ => none
  | fuel + 1, l, blk => mmu_list_add_ascending_by_address fuel l blk

/-- The locals of the search loop of `allocate_memory` (mmu.c 55-59). -/
structure Scan where
  selected : Option (Nat × Block)
  best_diff : Int
  worst_diff : Int
deriving DecidableEq, Repr

/-- The search loop of `allocate_memory` (mmu.c 61-82); the `Nat` is the position
of `current` in the free list. -/
def allocate_scan (blocksize policy : Int) : List Block → Nat → Scan → Scan
  | [], _, st => st
  | blk :: rest, i, st =>
    let size := blk.«end» - blk.start + 1
    if size ≥ blocksize then
      let diff := size - blocksize
      if policy = 1 then { st with selected := some (i, blk) }
      else if policy = 2 then
        if diff < st.best_diff then
          allocate_scan blocksize policy rest (i + 1)
            { st with best_diff := diff, selected := some (i, blk) }
        else allocate_scan blocksize policy rest (i + 1) st
      else
        if diff > st.worst_diff then
          allocate_scan blocksize policy rest (i + 1)
            { st with worst_diff := diff, selected := some (i, blk) }
        else allocate_scan blocksize policy rest (i + 1) st
    else allocate_scan blocksize policy rest (i + 1) st

/-- The initial locals of `allocate_memory` (mmu.c 55-59). -/
def scan_init : Scan := { selected := none, best_diff := 2147483647, worst_diff := -1 }

/-- What a command leaves behind: whether the error line was printed, and the two
lists. -/
structure Outcome where
  error : Bool
  freelist : List Block
  alloclist : List Block
deriving DecidableEq, Repr

/-- Function `allocate_memory` (mmu.c 52-113). -/
def allocate_memory (fuel : Nat) (freelist alloclist : List Block)
    (pid blocksize policy : Int) : Option Outcome :=
  match (allocate_scan blocksize policy freelist 0 scan_init).selected with
  | none => some { error := true, freelist := freelist, alloclist := alloclist }
  | some (i, blk0) =>
    let freelist1 := list_remove_node freelist i
    let original_end := blk0.«end»
    let blk : Block := { blk0 with pid := pid, «end» := blk0.start + blocksize - 1 }
    match mmu_list_add_ascending_by_address fuel alloclist blk with
    | none => none
    | some alloclist1 =>
      if blk.«end» < original_end then
        let fragment : Block := { pid := 0, start := blk.«end» + 1, «end» := original_end }
        if policy = 1 then
          some { error := false, freelist := list_add_to_back freelist1 fragment,
                 alloclist := alloclist1 }
        else if policy = 2 then
          some { error := false,
                 freelist := list_add_ascending_by_blocksize freelist1 fragment,
                 alloclist := alloclist1 }
        else
          some { error := false,
                 freelist := list_add_descending_by_blocksize freelist1 fragment,
                 alloclist := alloclist1 }
      else some { error := false, freelist := freelist1, alloclist := alloclist1 }

/-- The search loop of `deallocate_memory` (mmu.c 122-131): the first node whose
block has the given pid. -/
def deallocate_find (pid : Int) : List Block → Nat → Option (Nat × Block)
  | [], _ => none
  | blk :: rest, i => if blk.pid = pid then some (i, blk) else deallocate_find pid rest (i + 1)

/-- Function `deallocate_memory` (mmu.c 116-149). -/
def deallocate_memory (alloclist freelist : List Block) (pid policy : Int) : Outcome :=
  match deallocate_find pid alloclist 0 with
  | none => { error := true, freelist := freelist, alloclist := alloclist }
  | some (i, blk0) =>
    let alloclist1 := list_remove_node alloclist i
    let blk : Block := { blk0 with pid := 0 }
    if policy = 1 then
      { error := false, freelist := list_add_to_back freelist blk, alloclist := alloclist1 }
    else if policy = 2 then
      { error := false, freelist := list_add_ascending_by_blocksize freelist blk,
        alloclist := alloclist1 }
    else
      { error := false, freelist := list_add_descending_by_blocksize freelist blk,
        alloclist := alloclist1 }

/-- The loop of `coalese_memory` (mmu.c 157-161): move the front block of `list`
into `temp_list` until `list` is empty. -/
def coalese_memory_loop (fuel : Nat) : List Block → List Block → Option (List Block)
  | [], temp_list => some temp_list
  | blk :: list, temp_list =>
    match mmu_list_add_ascending_by_address fuel temp_list blk with
    | none => none
    | some temp_list1 => coalese_memory_loop fuel list temp_list1

/-- Function `coalese_memory` (mmu.c 152-167). -/
def coalese_memory (fuel : Nat) (list : List Block) : Option (List Block) :=
  match coalese_memory_loop fuel list [] with
  | none => none
  | some temp_list => some (list_coalese_nodes temp_list)

/-- The two lists held by `main`. -/
structure Lists where
  FREE_LIST : List Block
  ALLOC_LIST : List Block
deriving DecidableEq, Repr

/-- The lists of `main` before the first command (mmu.c 197-214). -/
def main_init (PARTITION_SIZE : Int) : Lists :=
  { FREE_LIST := list_add_to_front []
      { start := 0, «end» := PARTITION_SIZE + 0 - 1, pid := 0 },
    ALLOC_LIST := [] }

/-- One iteration of the command loop of `main` (mmu.c 216-235) on the pair
`inputdata[i]`. -/
def main_step (fuel : Nat) (policy : Int) (st : Lists) (cmd : Int × Int) : Option Lists :=
  if cmd.1 ≠ -99999 ∧ cmd.1 > 0 then
    match allocate_memory fuel st.FREE_LIST st.ALLOC_LIST cmd.1 cmd.2 policy with
    | none => none
    | some r => some { FREE_LIST := r.freelist, ALLOC_LIST := r.alloclist }
  else if cmd.1 ≠ -99999 ∧ cmd.1 < 0 then
    let r := deallocate_memory st.ALLOC_LIST st.FREE_LIST (Int.natAbs cmd.1) policy
    some { FREE_LIST := r.freelist, ALLOC_LIST := r.alloclist }
  else
    match coalese_memory fuel st.FREE_LIST with
    | none => none
    | some l => some { st with FREE_LIST := l }

/-- The command loop of `main` (mmu.c 216-235). -/
def main_loop (fuel : Nat) (policy : Int) : Lists → List (Int × Int) → Option Lists
  | st, [] => some st
  | st, cmd :: rest =>
    match main_step fuel policy st cmd with
    | none => none
    | some st1 => main_loop fuel policy st1 rest

/-- The search loop of `list_remove_at_index` (list.c 220-228), seen from `cur`: the
list argument is the chain `cur->next`, the second argument is `i`.  The result is the
returned block (`none` for `NULL`) and the chain `cur->next` afterwards. -/
def list_remove_at_index_loop (index : Int) : List Block → Int → Option Block × List Block
  | [], _ => (none, [])
  | nxt :: rest, i =>
    if i < index - 1 then
      let r := list_remove_at_index_loop index rest (i + 1)
      (r.1, nxt :: r.2)
    else (some nxt, rest)

/-- Function `list_remove_at_index` (list.c 217-229). -/
def list_remove_at_index : List Block → Int → Option Block × List Block
  | [], _ => (none, [])
  | head :: rest, index =>
    if index ≤ 0 then list_remove_from_front (head :: rest)
    else
      let r := list_remove_at_index_loop index rest 0
      (r.1, head :: r.2)

/-! ### The operations of `mmu.c` over an arbitrary callee

The program holds two definitions of `list_add_ascending_by_address`.  The functions
below are `allocate_memory`, `coalese_memory` and the command loop with the callee of
mmu.c lines 100 and 160 left open: `add l blk = none` stands for a call that does not
return.  `allocate_memory` above is the instance at the definition of mmu.c;
`list_c_add` is the definition of list.c, the one that the comments at mmu.c 48 and
159 name. -/

/-- The definition of `list_add_ascending_by_address` in list.c (121-137) as a callee:
it always returns. -/
def list_c_add (l : List Block) (blk : Block) : Option (List Block) :=
  some (list_add_ascending_by_address l blk)

/-- Function `allocate_memory` (mmu.c 52-113) with the callee of line 100 given by
`add`. -/
def allocate_memory_with (add : List Block → Block → Option (List Block))
    (freelist alloclist : List Block) (pid blocksize policy : Int) : Option Outcome :=
  match (allocate_scan blocksize policy freelist 0 scan_init).selected with
  | none => some { error := true, freelist := freelist, alloclist := alloclist }
  | some (i, blk0) =>
    let freelist1 := list_remove_node freelist i
    let original_end := blk0.«end»
    let blk : Block := { blk0 with pid := pid, «end» := blk0.start + blocksize - 1 }
    match add alloclist blk with
    | none => none
    | some alloclist1 =>
      if blk.«end» < original_end then
        let fragment : Block := { pid := 0, start := blk.«end» + 1, «end» := original_end }
        if policy = 1 then
          some { error := false, freelist := list_add_to_back freelist1 fragment,
                 alloclist := alloclist1 }
        else if policy = 2 then
          some { error := false,
                 freelist := list_add_ascending_by_blocksize freelist1 fragment,
                 alloclist := alloclist1 }
        else
          some { error := false,
                 freelist := list_add_descending_by_blocksize freelist1 fragment,
                 alloclist := alloclist1 }
      else some { error := false, freelist := freelist1, alloclist := alloclist1 }

/-- The loop of `coalese_memory` (mmu.c 157-161) with the callee of line 160 given by
`add`. -/
def coalese_memory_loop_with (add : List Block → Block → Option (List Block)) :
    List Block → List Block → Option (List Block)
  | [], temp_list => some temp_list
  | blk :: list, temp_list =>
    match add temp_list blk with
    | none => none
    | some temp_list1 => coalese_memory_loop_with add list temp_list1

/-- Function `coalese_memory` (mmu.c 152-167) with the callee of line 160 given by
`add`. -/
def coalese_memory_with (add : List Block → Block → Option (List Block))
    (list : List Block) : Option (List Block) :=
  match coalese_memory_loop_with add list [] with
  | none => none
  | some temp_list => some (list_coalese_nodes temp_list)

/-- One iteration of the command loop of `main` (mmu.c 216-235) with the callee of
mmu.c lines 100 and 160 given by `add`. -/
def main_step_with (add : List Block → Block → Option (List Block)) (policy : Int)
    (st : Lists) (cmd : Int × Int) : Option Lists :=
  if cmd.1 ≠ -99999 ∧ cmd.1 > 0 then
    match allocate_memory_with add st.FREE_LIST st.ALLOC_LIST cmd.1 cmd.2 policy with
    | none => none
    | some r => some { FREE_LIST := r.freelist, ALLOC_LIST := r.alloclist }
  else if cmd.1 ≠ -99999 ∧ cmd.1 < 0 then
    let r := deallocate_memory st.ALLOC_LIST st.FREE_LIST (Int.natAbs cmd.1) policy
    some { FREE_LIST := r.freelist, ALLOC_LIST := r.alloclist }
  else
    match coalese_memory_with add st.FREE_LIST with
    | none => none
    | some l => some { st with FREE_LIST := l }

/-- The command loop of `main` (mmu.c 216-235) with the callee of mmu.c lines 100 and
160 given by `add`. -/
def main_loop_with (add : List Block → Block → Option (List Block)) (policy : Int) :
    Lists → List (Int × Int) → Option Lists
  | st, [] => some st
  | st, cmd :: rest =>
    match main_step_with add policy st cmd with
    | none => none
    | some st1 => main_loop_with add policy st1 rest

/-! ## The search loop of `allocate_memory` -/

theorem mmu_list_add_ascending_by_address_eq_none (fuel : Nat) (l : List Block) (blk : Block) :
    mmu_list_add_ascending_by_address fuel l blk = none := by
  induction fuel with
  | zero => rfl
  | succ k ih => simpa [mmu_list_add_ascending_by_address] using ih

/-- First-fit scan: the result is the first block of size at least `blocksize`. -/
theorem allocate_scan_first (blocksize : Int) (l : List Block) (i : Nat) (st : Scan)
    (h : ∃ b ∈ l, blocksize ≤ blockSize b) :
    ∃ j blk, (allocate_scan blocksize 1 l i st).selected = some (i + j, blk) ∧
      l[j]? = some blk ∧ blocksize ≤ blockSize blk ∧
      ∀ k, k < j → ∀ c, l[k]? = some c → blockSize c < blocksize := by
  induction l generalizing i st with
  | nil => simp at h
  | cons a rest ih =>
    by_cases ha : blocksize ≤ blockSize a
    · refine ⟨0, a, ?_, by simp, ha, by simp⟩
      have ha' : a.«end» - a.start + 1 ≥ blocksize := ha
      simp [allocate_scan, ha']
    · have hrest : ∃ b ∈ rest, blocksize ≤ blockSize b := by
        obtain ⟨b, hb, hsz⟩ := h
        rcases List.mem_cons.1 hb with rfl | hb
        · exact absurd hsz ha
        · exact ⟨b, hb, hsz⟩
      obtain ⟨j, blk, hsel, hget, hsz, hbefore⟩ := ih (i + 1) st hrest
      refine ⟨j + 1, blk, ?_, by simpa using hget, hsz, ?_⟩
      · have ha' : ¬ a.«end» - a.start + 1 ≥ blocksize := ha
        simp only [allocate_scan, ha', if_false]
        rw [hsel]; congr 2; omega
      · intro k hk c hc
        cases k with
        | zero =>
          simp at hc; subst hc
          exact lt_of_not_ge ha
        | succ k =>
          simp at hc
          exact hbefore k (by omega) c hc

theorem allocate_scan_first_none (blocksize : Int) (l : List Block) (i : Nat) (st : Scan)
    (h : ∀ b ∈ l, blockSize b < blocksize) (policy : Int) :
    allocate_scan blocksize policy l i st = st := by
  induction l generalizing i with
  | nil => rfl
  | cons a rest ih =>
    have ha : ¬ a.«end» - a.start + 1 ≥ blocksize := by
      have := h a (List.mem_cons_self _ _)
      unfold blockSize at this; omega
    simp only [allocate_scan, ha, if_false]
    exact ih (i + 1) (fun b hb => h b (List.mem_cons_of_mem _ hb))

/-- Best-fit scan, when no remaining block improves on the running best. -/
theorem allocate_scan_best_keep (blocksize : Int) (l : List Block) (i : Nat) (st : Scan)
    (h : ∀ b ∈ l, blocksize ≤ blockSize b → st.best_diff ≤ blockSize b - blocksize) :
    allocate_scan blocksize 2 l i st = st := by
  induction l generalizing i with
  | nil => rfl
  | cons a rest ih =>
    have hrest := ih (i + 1) (fun b hb => h b (List.mem_cons_of_mem _ hb))
    have ha := h a (List.mem_cons_self _ _)
    unfold blockSize at ha
    by_cases hq : a.«end» - a.start + 1 ≥ blocksize
    · have hd : ¬ a.«end» - a.start + 1 - blocksize < st.best_diff := by
        have := ha hq; omega
      simp only [allocate_scan, hq, hd, if_true, if_false]
      simpa using hrest
    · simp only [allocate_scan, hq, if_false]
      exact hrest

/-- Best-fit scan, when some remaining block improves on the running best. -/
theorem allocate_scan_best (blocksize : Int) (l : List Block) (i : Nat) (st : Scan)
    (h : ∃ b ∈ l, blocksize ≤ blockSize b ∧ blockSize b - blocksize < st.best_diff) :
    ∃ j blk, (allocate_scan blocksize 2 l i st).selected = some (i + j, blk) ∧
      l[j]? = some blk ∧ blocksize ≤ blockSize blk ∧
      blockSize blk - blocksize < st.best_diff ∧
      (∀ c ∈ l, blocksize ≤ blockSize c → blockSize blk ≤ blockSize c) ∧
      ∀ k, k < j → ∀ c, l[k]? = some c → blocksize ≤ blockSize c →
        blockSize blk < blockSize c := by
  induction l generalizing i st with
  | nil => simp at h
  | cons a rest ih =>
    by_cases hq : blocksize ≤ blockSize a ∧ blockSize a - blocksize < st.best_diff
    · -- the head becomes the running best
      obtain ⟨hq1, hq2⟩ := hq
      have e1 : a.«end» - a.start + 1 ≥ blocksize := hq1
      have e2 : a.«end» - a.start + 1 - blocksize < st.best_diff := hq2
      have hstep : allocate_scan blocksize 2 (a :: rest) i st =
          allocate_scan blocksize 2 rest (i + 1)
            { st with best_diff := a.«end» - a.start + 1 - blocksize, selected := some (i, a) } := by
        simp [allocate_scan, e1, e2]
      by_cases hbetter : ∃ b ∈ rest, blocksize ≤ blockSize b ∧
          blockSize b - blocksize < blockSize a - blocksize
      · obtain ⟨j, blk, hsel, hget, hsz, hlt, hmin, hbefore⟩ :=
          ih (i + 1) { st with best_diff := a.«end» - a.start + 1 - blocksize,
                               selected := some (i, a) } hbetter
        have hlt' : blockSize blk - blocksize < blockSize a - blocksize := hlt
        refine ⟨j + 1, blk, ?_, by simpa using hget, hsz, by omega, ?_, ?_⟩
        · rw [hstep, hsel]; congr 2; omega
        · intro c hc hcq
          rcases List.mem_cons.1 hc with rfl | hc
          · omega
          · exact hmin c hc hcq
        · intro k hk c hc hcq
          cases k with
          | zero => simp at hc; subst hc; omega
          | succ k => simp at hc; exact hbefore k (by omega) c hc hcq
      · have hkeep := allocate_scan_best_keep blocksize rest (i + 1)
          { st with best_diff := a.«end» - a.start + 1 - blocksize, selected := some (i, a) }
          (by
            intro b hb hbq
            by_contra hcon
            exact hbetter ⟨b, hb, hbq, by
              have : ¬ (blockSize a - blocksize ≤ blockSize b - blocksize) := hcon
              omega⟩)
        refine ⟨0, a, ?_, by simp, hq1, hq2, ?_, by simp⟩
        · rw [hstep, hkeep]; simp
        · intro c hc hcq
          rcases List.mem_cons.1 hc with rfl | hc
          · exact le_refl _
          · by_contra hcon
            exact hbetter ⟨c, hc, hcq, by omega⟩
    · -- the head leaves the locals as they are
      have hstep : allocate_scan blocksize 2 (a :: rest) i st =
          allocate_scan blocksize 2 rest (i + 1) st := by
        by_cases e1 : a.«end» - a.start + 1 ≥ blocksize
        · have e2 : ¬ a.«end» - a.start + 1 - blocksize < st.best_diff := by
            intro hc; exact hq ⟨e1, hc⟩
          simp [allocate_scan, e1, e2]
        · simp [allocate_scan, e1]
      have hrest : ∃ b ∈ rest, blocksize ≤ blockSize b ∧
          blockSize b - blocksize < st.best_diff := by
        obtain ⟨b, hb, hb1, hb2⟩ := h
        rcases List.mem_cons.1 hb with rfl | hb
        · exact absurd ⟨hb1, hb2⟩ hq
        · exact ⟨b, hb, hb1, hb2⟩
      obtain ⟨j, blk, hsel, hget, hsz, hlt, hmin, hbefore⟩ := ih (i + 1) st hrest
      have ha : blocksize ≤ blockSize a → blockSize blk < blockSize a := by
        intro ha1
        have : ¬ blockSize a - blocksize < st.best_diff := fun hc => hq ⟨ha1, hc⟩
        omega
      refine ⟨j + 1, blk, ?_, by simpa using hget, hsz, hlt, ?_, ?_⟩
      · rw [hstep, hsel]; congr 2; omega
      · intro c hc hcq
        rcases List.mem_cons.1 hc with rfl | hc
        · exact le_of_lt (ha hcq)
        · exact hmin c hc hcq
      · intro k hk c hc hcq
        cases k with
        | zero => simp at hc; subst hc; exact ha hcq
        | succ k => simp at hc; exact hbefore k (by omega) c hc hcq

/-- Worst-fit scan, when no remaining block improves on the running worst. -/
theorem allocate_scan_worst_keep (blocksize policy : Int) (h1 : policy ≠ 1) (h2 : policy ≠ 2)
    (l : List Block) (i : Nat) (st : Scan)
    (h : ∀ b ∈ l, blocksize ≤ blockSize b → blockSize b - blocksize ≤ st.worst_diff) :
    allocate_scan blocksize policy l i st = st := by
  induction l generalizing i with
  | nil => rfl
  | cons a rest ih =>
    have hrest := ih (i + 1) (fun b hb => h b (List.mem_cons_of_mem _ hb))
    have ha := h a (List.mem_cons_self _ _)
    unfold blockSize at ha
    by_cases hq : a.«end» - a.start + 1 ≥ blocksize
    · have hd : ¬ a.«end» - a.start + 1 - blocksize > st.worst_diff := by
        have := ha hq; omega
      simp only [allocate_scan, hq, hd, h1, h2, if_true, if_false]
      simpa using hrest
    · simp only [allocate_scan, hq, if_false]
      exact hrest

/-- Worst-fit scan, when some remaining block improves on the running worst. -/
theorem allocate_scan_worst (blocksize policy : Int) (h1 : policy ≠ 1) (h2 : policy ≠ 2)
    (l : List Block) (i : Nat) (st : Scan)
    (h : ∃ b ∈ l, blocksize ≤ blockSize b ∧ st.worst_diff < blockSize b - blocksize) :
    ∃ j blk, (allocate_scan blocksize policy l i st).selected = some (i + j, blk) ∧
      l[j]? = some blk ∧ blocksize ≤ blockSize blk ∧
      st.worst_diff < blockSize blk - blocksize ∧
      (∀ c ∈ l, blocksize ≤ blockSize c → blockSize c ≤ blockSize blk) ∧
      ∀ k, k < j → ∀ c, l[k]? = some c → blocksize ≤ blockSize c →
        blockSize c < blockSize blk := by
  induction l generalizing i st with
  | nil => simp at h
  | cons a rest ih =>
    by_cases hq : blocksize ≤ blockSize a ∧ st.worst_diff < blockSize a - blocksize
    · -- the head becomes the running worst
      obtain ⟨hq1, hq2⟩ := hq
      have e1 : a.«end» - a.start + 1 ≥ blocksize := hq1
      have e2 : a.«end» - a.start + 1 - blocksize > st.worst_diff := hq2
      have hstep : allocate_scan blocksize policy (a :: rest) i st =
          allocate_scan blocksize policy rest (i + 1)
            { st with worst_diff := a.«end» - a.start + 1 - blocksize, selected := some (i, a) } := by
        simp [allocate_scan, e1, e2, h1, h2]
      by_cases hbetter : ∃ b ∈ rest, blocksize ≤ blockSize b ∧
          blockSize a - blocksize < blockSize b - blocksize
      · obtain ⟨j, blk, hsel, hget, hsz, hlt, hmax, hbefore⟩ :=
          ih (i + 1) { st with worst_diff := a.«end» - a.start + 1 - blocksize,
                               selected := some (i, a) } hbetter
        have hlt' : blockSize a - blocksize < blockSize blk - blocksize := hlt
        refine ⟨j + 1, blk, ?_, by simpa using hget, hsz, by omega, ?_, ?_⟩
        · rw [hstep, hsel]; congr 2; omega
        · intro c hc hcq
          rcases List.mem_cons.1 hc with rfl | hc
          · omega
          · exact hmax c hc hcq
        · intro k hk c hc hcq
          cases k with
          | zero => simp at hc; subst hc; omega
          | succ k => simp at hc; exact hbefore k (by omega) c hc hcq
      · have hkeep := allocate_scan_worst_keep blocksize policy h1 h2 rest (i + 1)
          { st with worst_diff := a.«end» - a.start + 1 - blocksize, selected := some (i, a) }
          (by
            intro b hb hbq
            by_contra hcon
            exact hbetter ⟨b, hb, hbq, by
              have : ¬ (blockSize b - blocksize ≤ blockSize a - blocksize) := hcon
              omega⟩)
        refine ⟨0, a, ?_, by simp, hq1, hq2, ?_, by simp⟩
        · rw [hstep, hkeep]; simp
        · intro c hc hcq
          rcases List.mem_cons.1 hc with rfl | hc
          · exact le_refl _
          · by_contra hcon
            exact hbetter ⟨c, hc, hcq, by omega⟩
    · -- the head leaves the locals as they are
      have hstep : allocate_scan blocksize policy (a :: rest) i st =
          allocate_scan blocksize policy rest (i + 1) st := by
        by_cases e1 : a.«end» - a.start + 1 ≥ blocksize
        · have e2 : ¬ a.«end» - a.start + 1 - blocksize > st.worst_diff := by
            intro hc; exact hq ⟨e1, hc⟩
          simp [allocate_scan, e1, e2, h1, h2]
        · simp [allocate_scan, e1]
      have hrest : ∃ b ∈ rest, blocksize ≤ blockSize b ∧
          st.worst_diff < blockSize b - blocksize := by
        obtain ⟨b, hb, hb1, hb2⟩ := h
        rcases List.mem_cons.1 hb with rfl | hb
        · exact absurd ⟨hb1, hb2⟩ hq
        · exact ⟨b, hb, hb1, hb2⟩
      obtain ⟨j, blk, hsel, hget, hsz, hlt, hmax, hbefore⟩ := ih (i + 1) st hrest
      have ha : blocksize ≤ blockSize a → blockSize a < blockSize blk := by
        intro ha1
        have : ¬ st.worst_diff < blockSize a - blocksize := fun hc => hq ⟨ha1, hc⟩
        omega
      refine ⟨j + 1, blk, ?_, by simpa using hget, hsz, hlt, ?_, ?_⟩
      · rw [hstep, hsel]; congr 2; omega
      · intro c hc hcq
        rcases List.mem_cons.1 hc with rfl | hc
        · exact le_of_lt (ha hcq)
        · exact hmax c hc hcq
      · intro k hk c hc hcq
        cases k with
        | zero => simp at hc; subst hc; exact ha hcq
        | succ k => simp at hc; exact hbefore k (by omega) c hc hcq

/-! ## `allocate_memory` -/

/-- With a block selected, `allocate_memory` reaches the call at mmu.c line 100 and
does not come back from it. -/
theorem allocate_memory_of_selected (fuel : Nat) (freelist alloclist : List Block)
    (pid blocksize policy : Int) (sel : Nat × Block)
    (h : (allocate_scan blocksize policy freelist 0 scan_init).selected = some sel) :
    allocate_memory fuel freelist alloclist pid blocksize policy = none := by
  obtain ⟨i, blk0⟩ := sel
  unfold allocate_memory
  rw [h]
  simp [mmu_list_add_ascending_by_address_eq_none]

/-- With no block selected, `allocate_memory` prints the error and returns. -/
theorem allocate_memory_of_not_selected (fuel : Nat) (freelist alloclist : List Block)
    (pid blocksize policy : Int)
    (h : (allocate_scan blocksize policy freelist 0 scan_init).selected = none) :
    allocate_memory fuel freelist alloclist pid blocksize policy =
      some { error := true, freelist := freelist, alloclist := alloclist } := by
  unfold allocate_memory
  rw [h]

/-- Under every policy the search selects some block as soon as one qualifies and
none exceeds the request by `2147483647` or more. -/
theorem allocate_scan_selects (blocksize policy : Int) (l : List Block)
    (hrange : ∀ b ∈ l, blockSize b - blocksize < 2147483647)
    (h : ∃ b ∈ l, blocksize ≤ blockSize b) :
    ∃ sel, (allocate_scan blocksize policy l 0 scan_init).selected = some sel := by
  by_cases h1 : policy = 1
  · subst h1
    obtain ⟨j, blk, hsel, -⟩ := allocate_scan_first blocksize l 0 scan_init h
    exact ⟨_, hsel⟩
  · by_cases h2 : policy = 2
    · subst h2
      obtain ⟨b, hb, hq⟩ := h
      obtain ⟨j, blk, hsel, -⟩ := allocate_scan_best blocksize l 0 scan_init
        ⟨b, hb, hq, by simpa [scan_init] using hrange b hb⟩
      exact ⟨_, hsel⟩
    · obtain ⟨b, hb, hq⟩ := h
      obtain ⟨j, blk, hsel, -⟩ := allocate_scan_worst blocksize policy h1 h2 l 0 scan_init
        ⟨b, hb, hq, by simp only [scan_init]; omega⟩
      exact ⟨_, hsel⟩

/-- Function `coalese_memory` does not return on a non-empty list: the first pass of
its loop enters `list_add_ascending_by_address` of mmu.c. -/
theorem coalese_memory_of_cons (fuel : Nat) (blk : Block) (list : List Block) :
    coalese_memory fuel (blk :: list) = none := by
  simp [coalese_memory, coalese_memory_loop, mmu_list_add_ascending_by_address_eq_none]

/-! ## The insertion disciplines and node removal of `list.c` -/

theorem list_add_to_back_eq (l : List Block) (blk : Block) :
    list_add_to_back l blk = l ++ [blk] := by
  induction l with
  | nil => rfl
  | cons a rest ih => simp [list_add_to_back, ih]

/-- Ascending-size insertion puts the new block in front of the first block that is
strictly larger, behind every block that is not. -/
theorem list_add_ascending_by_blocksize_split (l : List Block) (newblk : Block) :
    ∃ l1 l2, l = l1 ++ l2 ∧ list_add_ascending_by_blocksize l newblk = l1 ++ newblk :: l2 ∧
      (∀ x ∈ l1, blockSize x ≤ blockSize newblk) ∧
      ∀ x, l2.head? = some x → blockSize newblk < blockSize x := by
  induction l with
  | nil => exact ⟨[], [], rfl, rfl, by simp, by simp⟩
  | cons a rest ih =>
    by_cases h : blockSize newblk < blockSize a
    · refine ⟨[], a :: rest, rfl, by simp [list_add_ascending_by_blocksize, h], by simp, ?_⟩
      intro x hx
      simp at hx; subst hx; exact h
    · obtain ⟨l1, l2, hl, hins, h1, h2⟩ := ih
      refine ⟨a :: l1, l2, by simp [hl], by simp [list_add_ascending_by_blocksize, h, hins],
        ?_, h2⟩
      intro x hx
      rcases List.mem_cons.1 hx with rfl | hx
      · exact not_lt.1 h
      · exact h1 x hx

/-- Descending-size insertion puts the new block in front of the first block that is
strictly smaller, behind every block that is not. -/
theorem list_add_descending_by_blocksize_split (l : List Block) (blk : Block) :
    ∃ l1 l2, l = l1 ++ l2 ∧ list_add_descending_by_blocksize l blk = l1 ++ blk :: l2 ∧
      (∀ x ∈ l1, blockSize blk ≤ blockSize x) ∧
      ∀ x, l2.head? = some x → blockSize x < blockSize blk := by
  induction l with
  | nil => exact ⟨[], [], rfl, rfl, by simp, by simp⟩
  | cons a rest ih =>
    by_cases h : blockSize blk > blockSize a
    · refine ⟨[], a :: rest, rfl, by simp [list_add_descending_by_blocksize, h], by simp, ?_⟩
      intro x hx
      simp at hx; subst hx; exact h
    · obtain ⟨l1, l2, hl, hins, h1, h2⟩ := ih
      refine ⟨a :: l1, l2, by simp [hl], by simp [list_add_descending_by_blocksize, h, hins],
        ?_, h2⟩
      intro x hx
      rcases List.mem_cons.1 hx with rfl | hx
      · exact not_lt.1 h
      · exact h1 x hx

theorem list_remove_node_append (pre post : List Block) (b : Block) (j : Nat)
    (hj : j = pre.length) : list_remove_node (pre ++ b :: post) j = pre ++ post := by
  subst hj
  induction pre with
  | nil => rfl
  | cons a rest ih => simp [list_remove_node, ih]

/-! ## `deallocate_memory` -/

theorem deallocate_find_none (pid : Int) (l : List Block) (i : Nat)
    (h : ∀ b ∈ l, b.pid ≠ pid) : deallocate_find pid l i = none := by
  induction l generalizing i with
  | nil => rfl
  | cons a rest ih =>
    have ha : a.pid ≠ pid := h a (List.mem_cons_self _ _)
    simp only [deallocate_find, ha, if_false]
    exact ih (i + 1) (fun b hb => h b (List.mem_cons_of_mem _ hb))

/-- The search of `deallocate_memory` stops at the first block owned by `pid`. -/
theorem deallocate_find_some (pid : Int) (l : List Block) (i : Nat)
    (h : ∃ b ∈ l, b.pid = pid) :
    ∃ pre blk post, l = pre ++ blk :: post ∧ (∀ x ∈ pre, x.pid ≠ pid) ∧ blk.pid = pid ∧
      deallocate_find pid l i = some (i + pre.length, blk) := by
  induction l generalizing i with
  | nil => simp at h
  | cons a rest ih =>
    by_cases ha : a.pid = pid
    · exact ⟨[], a, rest, rfl, by simp, ha, by simp [deallocate_find, ha]⟩
    · have hrest : ∃ b ∈ rest, b.pid = pid := by
        obtain ⟨b, hb, hp⟩ := h
        rcases List.mem_cons.1 hb with rfl | hb
        · exact absurd hp ha
        · exact ⟨b, hb, hp⟩
      obtain ⟨pre, blk, post, hl, hpre, hblk, hfind⟩ := ih (i + 1) hrest
      refine ⟨a :: pre, blk, post, by simp [hl], ?_, hblk, ?_⟩
      · intro x hx
        rcases List.mem_cons.1 hx with rfl | hx
        · exact ha
        · exact hpre x hx
      · simp only [deallocate_find, ha, if_false, hfind, List.length_cons]
        congr 2; omega

/-! ## `list_coalese_nodes` -/

/-- The first block of the result of the loop is `cur` itself, possibly with a later
`end`. -/
theorem coalese_loop_head (rest : List Block) (cur : Block) :
    ∃ e tail, coalese_loop cur rest = { cur with «end» := e } :: tail := by
  induction rest generalizing cur with
  | nil => exact ⟨cur.«end», [], rfl⟩
  | cons nxt rest ih =>
    by_cases hm : mergeable cur nxt
    · obtain ⟨e, tail, h⟩ := ih { cur with «end» := nxt.«end» }
      exact ⟨e, tail, by simp [coalese_loop, hm, h]⟩
    · exact ⟨cur.«end», coalese_loop nxt rest, by simp [coalese_loop, hm]⟩

/-- No two neighbours of the result of the loop pass the merge test. -/
theorem coalese_loop_chain (rest : List Block) (cur : Block) :
    List.Chain' (fun a b => ¬ mergeable a b) (coalese_loop cur rest) := by
  induction rest generalizing cur with
  | nil => simp [coalese_loop]
  | cons nxt rest ih =>
    by_cases hm : mergeable cur nxt
    · simpa [coalese_loop, hm] using ih { cur with «end» := nxt.«end» }
    · obtain ⟨e, tail, h⟩ := coalese_loop_head rest nxt
      have hrest := ih nxt
      simp only [coalese_loop, hm, if_false]
      rw [h] at hrest ⊢
      refine List.chain'_cons.2 ⟨?_, hrest⟩
      intro hc
      exact hm ⟨hc.1, hc.2.1, hc.2.2⟩

/-- The loop neither drops nor changes nor reorders a block with a non-zero owner. -/
theorem coalese_loop_filter (rest : List Block) (cur : Block) :
    (coalese_loop cur rest).filter (fun b => decide (b.pid ≠ 0)) =
      (cur :: rest).filter (fun b => decide (b.pid ≠ 0)) := by
  induction rest generalizing cur with
  | nil => rfl
  | cons nxt rest ih =>
    by_cases hm : mergeable cur nxt
    · have hc := hm.2.1
      have hn := hm.2.2
      simp only [coalese_loop, hm, if_true]
      rw [ih]
      simp [List.filter_cons, hc, hn]
    · simp only [coalese_loop, hm, if_false]
      rw [List.filter_cons, ih]
      simp [List.filter_cons]

/-- The loop cuts `cur :: rest` into consecutive runs, every neighbouring pair inside
a run passing the merge test, and returns for each run one block from the start of
its first block to the end of its last block. -/
theorem coalese_loop_runs (rest : List Block) (cur : Block) :
    ∃ (tl : List Block) (runs : List (Block × List Block)),
      rest = tl ++ (runs.map fun r => r.1 :: r.2).flatten ∧
      List.Chain mergeable cur tl ∧
      (∀ r ∈ runs, List.Chain mergeable r.1 r.2) ∧
      coalese_loop cur rest =
        { start := cur.start, «end» := (tl.getLastD cur).«end», pid := cur.pid } ::
          runs.map fun r =>
            { start := r.1.start, «end» := (r.2.getLastD r.1).«end», pid := r.1.pid } := by
  induction rest generalizing cur with
  | nil => exact ⟨[], [], by simp, List.Chain.nil, by simp, by simp [coalese_loop]⟩
  | cons nxt rest ih =>
    by_cases hm : mergeable cur nxt
    · obtain ⟨tl, runs, hrest, hchain, hruns, hres⟩ := ih { cur with «end» := nxt.«end» }
      refine ⟨nxt :: tl, runs, by simp [hrest], ?_, hruns, ?_⟩
      · refine List.chain_cons.2 ⟨hm, ?_⟩
        cases tl with
        | nil => exact List.Chain.nil
        | cons b tl =>
          obtain ⟨hb, hb'⟩ := List.chain_cons.1 hchain
          exact List.chain_cons.2 ⟨⟨hb.1, hm.2.2, hb.2.2⟩, hb'⟩
      · simp only [coalese_loop, hm, if_true]
        rw [hres]
        cases tl with
        | nil => simp
        | cons b tl => simp only [List.getLastD_cons]
    · obtain ⟨tl, runs, hrest, hchain, hruns, hres⟩ := ih nxt
      refine ⟨[], (nxt, tl) :: runs, by simp [hrest], List.Chain.nil, ?_, ?_⟩
      · intro r hr
        rcases List.mem_cons.1 hr with rfl | hr
        · exact hchain
        · exact hruns r hr
      · simp [coalese_loop, hm, hres]

/-- A list without a neighbouring pair that passes the merge test is returned as it
is. -/
theorem coalese_loop_of_chain (rest : List Block) (cur : Block)
    (h : List.Chain (fun a b => ¬ mergeable a b) cur rest) :
    coalese_loop cur rest = cur :: rest := by
  induction rest generalizing cur with
  | nil => rfl
  | cons nxt rest ih =>
    obtain ⟨hm, hrest⟩ := List.chain_cons.1 h
    simp [coalese_loop, hm, ih nxt hrest]

/-! ## Claims on allocation failure and on block selection -/

/-- C2 (evaluation) — allocation must fail exactly when no free block is at least as
large as the request.  Under best-fit, with the single free block `[0, 2147483646]`
(size `2147483647`) and a request of size `0`, `allocate_memory` reports a failure
although the block has size at least the request: its difference `2147483647` is not
below the initial `best_diff`. -/
theorem allocate_memory_fails_with_qualifying_block :
    allocate_memory 0 [⟨0, 2147483646, 0⟩] [] 1 0 2 =
        some { error := true, freelist := [⟨0, 2147483646, 0⟩], alloclist := [] } ∧
      ¬ ∀ b ∈ [(⟨0, 2147483646, 0⟩ : Block)], blockSize b < 0 := by
  decide

/-- When `allocate_memory` fails, and what it leaves behind: the search selects
nothing exactly when every block that is large enough is passed over by best-fit
because its difference is not below the initial `best_diff`; and a call that returns
with the error returns both lists exactly as they were.  Under the other policies
failure means that no block is large enough. -/
theorem allocate_memory_fails_iff (fuel : Nat) (freelist alloclist : List Block)
    (pid blocksize policy : Int) :
    ((∃ r, allocate_memory fuel freelist alloclist pid blocksize policy = some r ∧
          r.error = true) ↔
        ∀ b ∈ freelist, blocksize ≤ blockSize b →
          policy = 2 ∧ 2147483647 ≤ blockSize b - blocksize) ∧
      ∀ r, allocate_memory fuel freelist alloclist pid blocksize policy = some r →
        r.error = true → r.freelist = freelist ∧ r.alloclist = alloclist := by
  by_cases hq : ∃ b ∈ freelist, blocksize ≤ blockSize b ∧
      (policy = 2 → blockSize b - blocksize < 2147483647)
  · obtain ⟨b, hb, hsz, hlt⟩ := hq
    have hsome : ∃ sel,
        (allocate_scan blocksize policy freelist 0 scan_init).selected = some sel := by
      by_cases h1 : policy = 1
      · subst h1
        obtain ⟨j, blk, hsel, -⟩ := allocate_scan_first blocksize freelist 0 scan_init
          ⟨b, hb, hsz⟩
        exact ⟨_, hsel⟩
      · by_cases h2 : policy = 2
        · subst h2
          obtain ⟨j, blk, hsel, -⟩ := allocate_scan_best blocksize freelist 0 scan_init
            ⟨b, hb, hsz, by simpa [scan_init] using hlt rfl⟩
          exact ⟨_, hsel⟩
        · obtain ⟨j, blk, hsel, -⟩ :=
            allocate_scan_worst blocksize policy h1 h2 freelist 0 scan_init
              ⟨b, hb, hsz, by simp only [scan_init]; omega⟩
          exact ⟨_, hsel⟩
    obtain ⟨sel, hsel⟩ := hsome
    have hnone := allocate_memory_of_selected fuel freelist alloclist pid blocksize policy sel hsel
    refine ⟨⟨?_, ?_⟩, ?_⟩
    · rintro ⟨r, hr, -⟩
      rw [hnone] at hr
      exact absurd hr (by simp)
    · intro hall
      obtain ⟨h2, hge⟩ := hall b hb hsz
      exact absurd (hlt h2) (not_lt.2 hge)
    · intro r hr
      rw [hnone] at hr
      exact absurd hr (by simp)
  · have hall : ∀ b ∈ freelist, blocksize ≤ blockSize b →
        policy = 2 ∧ 2147483647 ≤ blockSize b - blocksize := by
      intro b hb hsz
      by_contra hcon
      refine hq ⟨b, hb, hsz, fun h2 => ?_⟩
      by_contra hge
      exact hcon ⟨h2, not_lt.1 hge⟩
    have hscan : allocate_scan blocksize policy freelist 0 scan_init = scan_init := by
      by_cases h2 : policy = 2
      · subst h2
        exact allocate_scan_best_keep blocksize freelist 0 scan_init
          (fun b hb hsz => by simpa [scan_init] using (hall b hb hsz).2)
      · exact allocate_scan_first_none blocksize freelist 0 scan_init
          (fun b hb => by
            by_contra hcon
            exact h2 (hall b hb (not_lt.1 hcon)).1) policy
    have hsel : (allocate_scan blocksize policy freelist 0 scan_init).selected = none := by
      rw [hscan]; rfl
    have hres := allocate_memory_of_not_selected fuel freelist alloclist pid blocksize policy hsel
    refine ⟨⟨fun _ => hall, fun _ => ⟨_, hres, rfl⟩⟩, ?_⟩
    intro r hr _
    rw [hres] at hr
    cases hr
    exact ⟨rfl, rfl⟩

/-- C6 — first-fit selection: under policy 1, for every free list and requested size
for which some block qualifies, the search of `allocate_memory` selects the block at
the smallest position whose size is at least the requested size: every block before
it in list order is too small. -/
theorem first_fit_selects_first_qualifying (freelist : List Block) (blocksize : Int)
    (h : ∃ b ∈ freelist, blocksize ≤ blockSize b) :
    ∃ i blk, (allocate_scan blocksize 1 freelist 0 scan_init).selected = some (i, blk) ∧
      freelist[i]? = some blk ∧ blocksize ≤ blockSize blk ∧
      ∀ k, k < i → ∀ c, freelist[k]? = some c → blockSize c < blocksize := by
  simpa using allocate_scan_first blocksize freelist 0 scan_init h

/-- C6 (witness) — free sizes `[10, 4, 8]`, request 5: the size-10 block at
position 0 is selected. -/
theorem first_fit_selects_first_qualifying_witness :
    (∃ b ∈ [(⟨0, 9, 0⟩ : Block), ⟨10, 13, 0⟩, ⟨14, 21, 0⟩], (5 : Int) ≤ blockSize b) ∧
      (allocate_scan 5 1 [⟨0, 9, 0⟩, ⟨10, 13, 0⟩, ⟨14, 21, 0⟩] 0 scan_init).selected =
        some (0, ⟨0, 9, 0⟩) ∧
      ∃ i blk,
        (allocate_scan 5 1 [⟨0, 9, 0⟩, ⟨10, 13, 0⟩, ⟨14, 21, 0⟩] 0 scan_init).selected =
          some (i, blk) ∧
        [(⟨0, 9, 0⟩ : Block), ⟨10, 13, 0⟩, ⟨14, 21, 0⟩][i]? = some blk ∧
        5 ≤ blockSize blk ∧
        ∀ k, k < i → ∀ c,
          [(⟨0, 9, 0⟩ : Block), ⟨10, 13, 0⟩, ⟨14, 21, 0⟩][k]? = some c → blockSize c < 5 :=
  ⟨by decide, by decide,
   first_fit_selects_first_qualifying [⟨0, 9, 0⟩, ⟨10, 13, 0⟩, ⟨14, 21, 0⟩] 5 (by decide)⟩

/-- C7 (evaluation) — best-fit must choose a block whenever one qualifies.  With the
single free block `[0, 2147483646]` (size `2147483647`) and a request of size `0` the
block qualifies; the first-fit and the worst-fit search select it, and the best-fit
search selects nothing, because the difference `2147483647` is not below the initial
`best_diff`. -/
theorem best_fit_selects_nothing_at_int_max :
    (∃ b ∈ [(⟨0, 2147483646, 0⟩ : Block)], (0 : Int) ≤ blockSize b) ∧
      (allocate_scan 0 2 [⟨0, 2147483646, 0⟩] 0 scan_init).selected = none ∧
      (allocate_scan 0 1 [⟨0, 2147483646, 0⟩] 0 scan_init).selected =
        some (0, ⟨0, 2147483646, 0⟩) ∧
      (allocate_scan 0 3 [⟨0, 2147483646, 0⟩] 0 scan_init).selected =
        some (0, ⟨0, 2147483646, 0⟩) := by
  decide

/-- Best-fit below the initial `best_diff`: under policy 2, when some block qualifies
with `size - requested < 2147483647`, the search selects a block whose size is the
minimum among all blocks of size at least the requested size, and among blocks of that
minimum size the one earliest in list order (every qualifying block before it is
strictly larger). -/
theorem best_fit_selects_smallest_qualifying (freelist : List Block) (blocksize : Int)
    (h : ∃ b ∈ freelist, blocksize ≤ blockSize b ∧ blockSize b - blocksize < 2147483647) :
    ∃ i blk, (allocate_scan blocksize 2 freelist 0 scan_init).selected = some (i, blk) ∧
      freelist[i]? = some blk ∧ blocksize ≤ blockSize blk ∧
      (∀ c ∈ freelist, blocksize ≤ blockSize c → blockSize blk ≤ blockSize c) ∧
      ∀ k, k < i → ∀ c, freelist[k]? = some c → blocksize ≤ blockSize c →
        blockSize blk < blockSize c := by
  obtain ⟨j, blk, hsel, hget, hsz, -, hmin, hbefore⟩ :=
    allocate_scan_best blocksize freelist 0 scan_init (by simpa [scan_init] using h)
  exact ⟨j, blk, by simpa using hsel, hget, hsz, hmin, hbefore⟩

/-- C8 — worst-fit selection: under policy 3, for every free list and requested size
for which some block qualifies, the search of `allocate_memory` selects a block whose
size is the maximum among all blocks of size at least the requested size, and among
blocks of that maximum size the one earliest in list order (every qualifying block
before it is strictly smaller). -/
theorem worst_fit_selects_largest_qualifying (freelist : List Block) (blocksize : Int)
    (h : ∃ b ∈ freelist, blocksize ≤ blockSize b) :
    ∃ i blk, (allocate_scan blocksize 3 freelist 0 scan_init).selected = some (i, blk) ∧
      freelist[i]? = some blk ∧ blocksize ≤ blockSize blk ∧
      (∀ c ∈ freelist, blocksize ≤ blockSize c → blockSize c ≤ blockSize blk) ∧
      ∀ k, k < i → ∀ c, freelist[k]? = some c → blocksize ≤ blockSize c →
        blockSize c < blockSize blk := by
  obtain ⟨b, hb, hq⟩ := h
  obtain ⟨j, blk, hsel, hget, hsz, -, hmax, hbefore⟩ :=
    allocate_scan_worst blocksize 3 (by decide) (by decide) freelist 0 scan_init
      ⟨b, hb, hq, by simp only [scan_init]; omega⟩
  exact ⟨j, blk, by simpa using hsel, hget, hsz, hmax, hbefore⟩

/-- C8 (witness) — free sizes `[10, 4, 8]`, request 5: the size-10 block is
selected. -/
theorem worst_fit_selects_largest_qualifying_witness :
    (∃ b ∈ [(⟨0, 9, 0⟩ : Block), ⟨10, 13, 0⟩, ⟨14, 21, 0⟩], (5 : Int) ≤ blockSize b) ∧
      (allocate_scan 5 3 [⟨0, 9, 0⟩, ⟨10, 13, 0⟩, ⟨14, 21, 0⟩] 0 scan_init).selected =
        some (0, ⟨0, 9, 0⟩) ∧
      ∃ i blk,
        (allocate_scan 5 3 [⟨0, 9, 0⟩, ⟨10, 13, 0⟩, ⟨14, 21, 0⟩] 0 scan_init).selected =
          some (i, blk) ∧
        [(⟨0, 9, 0⟩ : Block), ⟨10, 13, 0⟩, ⟨14, 21, 0⟩][i]? = some blk ∧
        5 ≤ blockSize blk ∧
        (∀ c ∈ [(⟨0, 9, 0⟩ : Block), ⟨10, 13, 0⟩, ⟨14, 21, 0⟩],
          5 ≤ blockSize c → blockSize c ≤ blockSize blk) ∧
        ∀ k, k < i → ∀ c,
          [(⟨0, 9, 0⟩ : Block), ⟨10, 13, 0⟩, ⟨14, 21, 0⟩][k]? = some c →
            5 ≤ blockSize c → blockSize c < blockSize blk :=
  ⟨by decide, by decide,
   worst_fit_selects_largest_qualifying [⟨0, 9, 0⟩, ⟨10, 13, 0⟩, ⟨14, 21, 0⟩] 5 (by decide)⟩

/-! ## Claims on deallocation -/

/-- C3 — deallocation of an unknown pid is non-destructive: for every allocated list,
free list, pid and policy, `deallocate_memory` reports "not found" exactly when no
block of the allocated list has owner equal to `pid`, and in that case both lists are
exactly as they were. -/
theorem deallocate_memory_not_found_iff (alloclist freelist : List Block)
    (pid policy : Int) :
    ((deallocate_memory alloclist freelist pid policy).error = true ↔
        ∀ b ∈ alloclist, b.pid ≠ pid) ∧
      ((deallocate_memory alloclist freelist pid policy).error = true →
        (deallocate_memory alloclist freelist pid policy).freelist = freelist ∧
        (deallocate_memory alloclist freelist pid policy).alloclist = alloclist) := by
  by_cases h : ∃ b ∈ alloclist, b.pid = pid
  · obtain ⟨pre, blk, post, -, -, -, hfind⟩ := deallocate_find_some pid alloclist 0 h
    have herr : (deallocate_memory alloclist freelist pid policy).error = false := by
      unfold deallocate_memory
      rw [hfind]
      by_cases h1 : policy = 1
      · simp [h1]
      · by_cases h2 : policy = 2
        · simp [h2]
        · simp [h1, h2]
    refine ⟨⟨?_, ?_⟩, ?_⟩
    · intro he; rw [herr] at he; exact absurd he (by simp)
    · intro hall
      obtain ⟨b, hb, hp⟩ := h
      exact absurd hp (hall b hb)
    · intro he; rw [herr] at he; exact absurd he (by simp)
  · have hall : ∀ b ∈ alloclist, b.pid ≠ pid := fun b hb hp => h ⟨b, hb, hp⟩
    have hres : deallocate_memory alloclist freelist pid policy =
        { error := true, freelist := freelist, alloclist := alloclist } := by
      unfold deallocate_memory
      rw [deallocate_find_none pid alloclist 0 hall]
    rw [hres]
    exact ⟨⟨fun _ => hall, fun _ => rfl⟩, fun _ => ⟨rfl, rfl⟩⟩

/-- C9 — deallocate success postcondition: for every allocated list containing a
block owned by `pid`, `deallocate_memory` removes the first such block from the
allocated list, leaving the other allocated blocks and their order unchanged, resets
that block's owner to 0 keeping its start and end, and inserts it into the free list
by the policy's discipline: at the back under policy 1; under policy 2 in front of
the first free block of strictly larger size (behind all others); under policy 3 (the
`else` branch) in front of the first free block of strictly smaller size (behind all
others).  The existing free blocks keep their relative order. -/
theorem deallocate_memory_success (alloclist freelist : List Block) (pid policy : Int)
    (h : ∃ b ∈ alloclist, b.pid = pid) :
    ∃ pre blk post, alloclist = pre ++ blk :: post ∧ (∀ x ∈ pre, x.pid ≠ pid) ∧
      blk.pid = pid ∧
      (deallocate_memory alloclist freelist pid policy).error = false ∧
      (deallocate_memory alloclist freelist pid policy).alloclist = pre ++ post ∧
      (policy = 1 →
        (deallocate_memory alloclist freelist pid policy).freelist =
          freelist ++ [{ start := blk.start, «end» := blk.«end», pid := 0 }]) ∧
      (policy = 2 → ∃ l1 l2, freelist = l1 ++ l2 ∧
        (deallocate_memory alloclist freelist pid policy).freelist =
          l1 ++ { start := blk.start, «end» := blk.«end», pid := 0 } :: l2 ∧
        (∀ x ∈ l1, blockSize x ≤ blockSize blk) ∧
        ∀ x, l2.head? = some x → blockSize blk < blockSize x) ∧
      (policy ≠ 1 → policy ≠ 2 → ∃ l1 l2, freelist = l1 ++ l2 ∧
        (deallocate_memory alloclist freelist pid policy).freelist =
          l1 ++ { start := blk.start, «end» := blk.«end», pid := 0 } :: l2 ∧
        (∀ x ∈ l1, blockSize blk ≤ blockSize x) ∧
        ∀ x, l2.head? = some x → blockSize x < blockSize blk) := by
  obtain ⟨pre, blk, post, hl, hpre, hblk, hfind⟩ := deallocate_find_some pid alloclist 0 h
  rw [Nat.zero_add] at hfind
  have hrem : list_remove_node alloclist pre.length = pre ++ post := by
    rw [hl]; exact list_remove_node_append pre post blk _ rfl
  refine ⟨pre, blk, post, hl, hpre, hblk, ?_, ?_, ?_, ?_, ?_⟩
  · unfold deallocate_memory
    rw [hfind]
    by_cases h1 : policy = 1
    · simp [h1]
    · by_cases h2 : policy = 2
      · simp [h2]
      · simp [h1, h2]
  · unfold deallocate_memory
    rw [hfind]
    by_cases h1 : policy = 1
    · simp [h1, hrem]
    · by_cases h2 : policy = 2
      · simp [h2, hrem]
      · simp [h1, h2, hrem]
  · intro h1
    unfold deallocate_memory
    rw [hfind]
    simp [h1, list_add_to_back_eq]
  · intro h2
    obtain ⟨l1, l2, hf, hins, hle, hlt⟩ := list_add_ascending_by_blocksize_split freelist
      { start := blk.start, «end» := blk.«end», pid := 0 }
    refine ⟨l1, l2, hf, ?_, hle, hlt⟩
    unfold deallocate_memory
    rw [hfind]
    simp [h2, hins]
  · intro h1 h2
    obtain ⟨l1, l2, hf, hins, hle, hlt⟩ := list_add_descending_by_blocksize_split freelist
      { start := blk.start, «end» := blk.«end», pid := 0 }
    refine ⟨l1, l2, hf, ?_, hle, hlt⟩
    unfold deallocate_memory
    rw [hfind]
    simp [h1, h2, hins]

/-- C9 (witness) — under best-fit, deallocating the size-7 block `[3,9]` of process 5
into the free sizes `[3, 12]` gives the free sizes `[3, 7, 12]`. -/
theorem deallocate_memory_success_witness :
    (∃ b ∈ [(⟨3, 9, 5⟩ : Block)], b.pid = 5) ∧
      deallocate_memory [⟨3, 9, 5⟩] [⟨0, 2, 0⟩, ⟨10, 21, 0⟩] 5 2 =
        { error := false, freelist := [⟨0, 2, 0⟩, ⟨3, 9, 0⟩, ⟨10, 21, 0⟩], alloclist := [] } ∧
      ∃ pre blk post, [(⟨3, 9, 5⟩ : Block)] = pre ++ blk :: post ∧
        (∀ x ∈ pre, x.pid ≠ 5) ∧ blk.pid = 5 ∧
        (deallocate_memory [⟨3, 9, 5⟩] [⟨0, 2, 0⟩, ⟨10, 21, 0⟩] 5 2).error = false ∧
        (deallocate_memory [⟨3, 9, 5⟩] [⟨0, 2, 0⟩, ⟨10, 21, 0⟩] 5 2).alloclist = pre ++ post ∧
        ((2 : Int) = 1 →
          (deallocate_memory [⟨3, 9, 5⟩] [⟨0, 2, 0⟩, ⟨10, 21, 0⟩] 5 2).freelist =
            [⟨0, 2, 0⟩, ⟨10, 21, 0⟩] ++
              [{ start := blk.start, «end» := blk.«end», pid := 0 }]) ∧
        ((2 : Int) = 2 → ∃ l1 l2, [(⟨0, 2, 0⟩ : Block), ⟨10, 21, 0⟩] = l1 ++ l2 ∧
          (deallocate_memory [⟨3, 9, 5⟩] [⟨0, 2, 0⟩, ⟨10, 21, 0⟩] 5 2).freelist =
            l1 ++ { start := blk.start, «end» := blk.«end», pid := 0 } :: l2 ∧
          (∀ x ∈ l1, blockSize x ≤ blockSize blk) ∧
          ∀ x, l2.head? = some x → blockSize blk < blockSize x) ∧
        ((2 : Int) ≠ 1 → (2 : Int) ≠ 2 →
          ∃ l1 l2, [(⟨0, 2, 0⟩ : Block), ⟨10, 21, 0⟩] = l1 ++ l2 ∧
          (deallocate_memory [⟨3, 9, 5⟩] [⟨0, 2, 0⟩, ⟨10, 21, 0⟩] 5 2).freelist =
            l1 ++ { start := blk.start, «end» := blk.«end», pid := 0 } :: l2 ∧
          (∀ x ∈ l1, blockSize blk ≤ blockSize x) ∧
          ∀ x, l2.head? = some x → blockSize x < blockSize blk) :=
  ⟨by decide, by decide,
   deallocate_memory_success [⟨3, 9, 5⟩] [⟨0, 2, 0⟩, ⟨10, 21, 0⟩] 5 2 (by decide)⟩

/-! ## Claim on `list_coalese_nodes` -/

/-- C10 — `list_coalese_nodes` produces maximal merged runs in one pass: for every
list (any owners, any order), (1) no two consecutive blocks of the result are both
free with `left.end + 1 = right.start`; (2) the input is cut into consecutive runs in
which every neighbouring pair qualifies, and each run is replaced by one block from
the start of its first block to the end of its last block (a run of one block is that
block, untouched); (3) the blocks with a non-zero owner are the same, with the same
fields and in the same order, before and after; (4) a list in which no neighbouring
pair qualifies is returned unchanged. -/
theorem list_coalese_nodes_maximal_runs (l : List Block) :
    List.Chain' (fun a b => ¬ mergeable a b) (list_coalese_nodes l) ∧
      (∃ runs : List (Block × List Block),
        l = (runs.map fun r => r.1 :: r.2).flatten ∧
        (∀ r ∈ runs, List.Chain mergeable r.1 r.2) ∧
        list_coalese_nodes l = runs.map fun r =>
          { start := r.1.start, «end» := (r.2.getLastD r.1).«end», pid := r.1.pid }) ∧
      (list_coalese_nodes l).filter (fun b => decide (b.pid ≠ 0)) =
        l.filter (fun b => decide (b.pid ≠ 0)) ∧
      (List.Chain' (fun a b => ¬ mergeable a b) l → list_coalese_nodes l = l) := by
  cases l with
  | nil => exact ⟨by simp [list_coalese_nodes], ⟨[], by simp [list_coalese_nodes]⟩, rfl,
      fun _ => rfl⟩
  | cons head rest =>
    refine ⟨coalese_loop_chain rest head, ?_, coalese_loop_filter rest head,
      fun h => coalese_loop_of_chain rest head h⟩
    obtain ⟨tl, runs, hrest, hchain, hruns, hres⟩ := coalese_loop_runs rest head
    refine ⟨(head, tl) :: runs, by simp [hrest], ?_, by simp [list_coalese_nodes, hres]⟩
    intro r hr
    rcases List.mem_cons.1 hr with rfl | hr
    · exact hchain
    · exact hruns r hr

/-! ## Claims on the success path of `allocate_memory` -/

/-- C1 (evaluation) — partition conservation asks for a tiling of `[0, 9]` after the
command "allocate 6 to process 1" issued on the initial lists of a partition of size
10.  Under every policy and for every bound on the call depth the command loop of
`main` does not get past that command: `allocate_memory` enters
`list_add_ascending_by_address` of mmu.c, which calls itself. -/
theorem main_loop_first_allocation_never_returns (fuel : Nat) (policy : Int) :
    main_loop fuel policy (main_init 10) [(1, 6)] = none := by
  obtain ⟨sel, hsel⟩ := allocate_scan_selects 6 policy [⟨0, 9, 0⟩] (by decide)
    ⟨⟨0, 9, 0⟩, by simp, by decide⟩
  have h := allocate_memory_of_selected fuel [⟨0, 9, 0⟩] [] 1 6 policy sel hsel
  have hinit : main_init 10 = { FREE_LIST := [⟨0, 9, 0⟩], ALLOC_LIST := [] } := by decide
  simp [main_loop, main_step, hinit, h]

/-- C4 (evaluation) — split correctness asks that allocating 6 from the free block
`[0, 9]` gives the allocated block `[0, 5]` and the free block `[6, 9]`.  Under every
policy and for every bound on the call depth `allocate_memory` produces no lists at
all on that input. -/
theorem allocate_memory_split_never_returns (fuel : Nat) (policy : Int) :
    allocate_memory fuel [⟨0, 9, 0⟩] [] 1 6 policy = none := by
  obtain ⟨sel, hsel⟩ := allocate_scan_selects 6 policy [⟨0, 9, 0⟩] (by decide)
    ⟨⟨0, 9, 0⟩, by simp, by decide⟩
  exact allocate_memory_of_selected fuel [⟨0, 9, 0⟩] [] 1 6 policy sel hsel

/-- C5 (evaluation) — exact fit asks that allocating 10 from the free block `[0, 9]`
gives the allocated block `[0, 9]` and an empty free list.  Under every policy and
for every bound on the call depth `allocate_memory` produces no lists at all on that
input. -/
theorem allocate_memory_exact_fit_never_returns (fuel : Nat) (policy : Int) :
    allocate_memory fuel [⟨0, 9, 0⟩] [] 1 10 policy = none := by
  obtain ⟨sel, hsel⟩ := allocate_scan_selects 10 policy [⟨0, 9, 0⟩] (by decide)
    ⟨⟨0, 9, 0⟩, by simp, by decide⟩
  exact allocate_memory_of_selected fuel [⟨0, 9, 0⟩] [] 1 10 policy sel hsel

/-! ## The two callees -/

/-- The function `allocate_memory` is `allocate_memory_with` at the definition of
mmu.c. -/
theorem allocate_memory_eq_with (fuel : Nat) (freelist alloclist : List Block)
    (pid blocksize policy : Int) :
    allocate_memory fuel freelist alloclist pid blocksize policy =
      allocate_memory_with (mmu_list_add_ascending_by_address fuel)
        freelist alloclist pid blocksize policy := rfl

theorem coalese_memory_loop_eq_with (fuel : Nat) (list temp_list : List Block) :
    coalese_memory_loop fuel list temp_list =
      coalese_memory_loop_with (mmu_list_add_ascending_by_address fuel) list temp_list := by
  induction list generalizing temp_list with
  | nil => rfl
  | cons blk list ih =>
    simp [coalese_memory_loop, coalese_memory_loop_with,
      mmu_list_add_ascending_by_address_eq_none]

/-- The function `coalese_memory` is `coalese_memory_with` at the definition of
mmu.c. -/
theorem coalese_memory_eq_with (fuel : Nat) (list : List Block) :
    coalese_memory fuel list =
      coalese_memory_with (mmu_list_add_ascending_by_address fuel) list := by
  simp [coalese_memory, coalese_memory_with, coalese_memory_loop_eq_with]

theorem main_step_eq_with (fuel : Nat) (policy : Int) (st : Lists) (cmd : Int × Int) :
    main_step fuel policy st cmd =
      main_step_with (mmu_list_add_ascending_by_address fuel) policy st cmd := by
  simp [main_step, main_step_with, allocate_memory_eq_with, coalese_memory_eq_with]

/-- The command loop of `main` is `main_loop_with` at the definition of mmu.c. -/
theorem main_loop_eq_with (fuel : Nat) (policy : Int) (st : Lists) (cmds : List (Int × Int)) :
    main_loop fuel policy st cmds =
      main_loop_with (mmu_list_add_ascending_by_address fuel) policy st cmds := by
  induction cmds generalizing st with
  | nil => rfl
  | cons cmd rest ih => simp [main_loop, main_loop_with, main_step_eq_with, ih]

/-! ## `list_remove_at_index` -/

theorem list_remove_at_index_loop_eq (index : Int) (rest : List Block) (i : Int)
    (h : i ≤ index - 1) :
    list_remove_at_index_loop index rest i =
      (rest[(index - 1 - i).toNat]?, rest.eraseIdx (index - 1 - i).toNat) := by
  induction rest generalizing i with
  | nil => simp [list_remove_at_index_loop]
  | cons nxt rest ih =>
    by_cases hlt : i < index - 1
    · have hk : (index - 1 - i).toNat = (index - 1 - (i + 1)).toNat + 1 := by omega
      simp only [list_remove_at_index_loop, hlt, if_true]
      rw [ih (i + 1) (by omega), hk]
      simp
    · have hk : (index - 1 - i).toNat = 0 := by omega
      simp [list_remove_at_index_loop, hlt, hk]

/-- For a non-negative index the function returns the block at that position, if
there is one, and erases it. -/
theorem list_remove_at_index_of_nonneg (l : List Block) (index : Int) (h : 0 ≤ index) :
    list_remove_at_index l index = (l[index.toNat]?, l.eraseIdx index.toNat) := by
  cases l with
  | nil => simp [list_remove_at_index]
  | cons head rest =>
    by_cases h0 : index ≤ 0
    · have : index.toNat = 0 := by omega
      simp [list_remove_at_index, h0, list_remove_from_front, this]
    · have hk : index.toNat = (index - 1 - 0).toNat + 1 := by omega
      simp only [list_remove_at_index, h0, if_false]
      rw [list_remove_at_index_loop_eq index rest 0 (by omega), hk]
      simp

/-- For an index that is not positive the function detaches the front block. -/
theorem list_remove_at_index_of_nonpos (l : List Block) (index : Int) (h : index ≤ 0) :
    list_remove_at_index l index = (l.head?, l.tail) := by
  cases l with
  | nil => simp [list_remove_at_index]
  | cons head rest => simp [list_remove_at_index, h, list_remove_from_front]

/-! ## Sorted insertion -/

/-- Address insertion puts the new block in front of the first block whose start is
not below its own, behind every block whose start is below. -/
theorem list_add_ascending_by_address_split (l : List Block) (blk : Block) :
    ∃ l1 l2, l = l1 ++ l2 ∧ list_add_ascending_by_address l blk = l1 ++ blk :: l2 ∧
      (∀ x ∈ l1, x.start < blk.start) ∧
      ∀ x, l2.head? = some x → blk.start ≤ x.start := by
  induction l with
  | nil => exact ⟨[], [], rfl, rfl, by simp, by simp⟩
  | cons a rest ih =>
    by_cases h : blk.start > a.start
    · obtain ⟨l1, l2, hl, hins, h1, h2⟩ := ih
      refine ⟨a :: l1, l2, by simp [hl], by simp [list_add_ascending_by_address, h, hins],
        ?_, h2⟩
      intro x hx
      rcases List.mem_cons.1 hx with rfl | hx
      · exact h
      · exact h1 x hx
    · refine ⟨[], a :: rest, rfl, by simp [list_add_ascending_by_address, h], by simp, ?_⟩
      intro x hx
      simp at hx; subst hx; exact not_lt.1 h

/-- A block inserted between two parts of a sorted list, behind smaller-or-equal keys
and in front of a head with a larger-or-equal key, leaves the list sorted. -/
theorem pairwise_insert_of_split (key : Block → Int) (l1 l2 : List Block) (blk : Block)
    (hs : (l1 ++ l2).Pairwise fun a b => key a ≤ key b)
    (h1 : ∀ x ∈ l1, key x ≤ key blk)
    (h2 : ∀ x, l2.head? = some x → key blk ≤ key x) :
    (l1 ++ blk :: l2).Pairwise fun a b => key a ≤ key b := by
  obtain ⟨hs1, hs2, hs12⟩ := List.pairwise_append.1 hs
  have hl2 : ∀ x ∈ l2, key blk ≤ key x := by
    intro x hx
    cases l2 with
    | nil => simp at hx
    | cons c l2 =>
      have hc := h2 c (by simp)
      rcases List.mem_cons.1 hx with rfl | hx
      · exact hc
      · exact le_trans hc ((List.pairwise_cons.1 hs2).1 x hx)
  refine List.pairwise_append.2 ⟨hs1, List.pairwise_cons.2 ⟨hl2, hs2⟩, ?_⟩
  intro a ha b hb
  rcases List.mem_cons.1 hb with rfl | hb
  · exact h1 a ha
  · exact hs12 a ha b hb

/-- In a sorted list every element is above a value that the head is above. -/
theorem lt_of_head_lt_of_pairwise (key : Block → Int) (l2 : List Block) (v : Int)
    (hs : l2.Pairwise fun a b => key a ≤ key b)
    (h : ∀ x, l2.head? = some x → v < key x) : ∀ x ∈ l2, v < key x := by
  intro x hx
  cases l2 with
  | nil => simp at hx
  | cons c l2 =>
    have hc := h c (by simp)
    rcases List.mem_cons.1 hx with rfl | hx
    · exact hc
    · exact lt_of_lt_of_le hc ((List.pairwise_cons.1 hs).1 x hx)

/-! ## What any completed `allocate_memory` has done -/

/-- Whatever the policy, a node selected by the search is either the one selected
before the search or a node of the scanned list whose block is large enough. -/
theorem allocate_scan_selected_get (blocksize policy : Int) (l : List Block) (i : Nat)
    (st : Scan) (j : Nat) (blk : Block)
    (h : (allocate_scan blocksize policy l i st).selected = some (j, blk)) :
    st.selected = some (j, blk) ∨
      ∃ k, j = i + k ∧ l[k]? = some blk ∧ blocksize ≤ blockSize blk := by
  induction l generalizing i st with
  | nil => exact Or.inl h
  | cons a rest ih =>
    have shift : ∀ st', (allocate_scan blocksize policy rest (i + 1) st').selected =
        some (j, blk) →
        (st'.selected = some (j, blk) ∨
          ∃ k, j = i + k ∧ (a :: rest)[k]? = some blk ∧ blocksize ≤ blockSize blk) := by
      intro st' h'
      rcases ih (i + 1) st' h' with h0 | ⟨k, hk, hget, hsz⟩
      · exact Or.inl h0
      · exact Or.inr ⟨k + 1, by omega, by simpa using hget, hsz⟩
    have here : ∀ st' : Scan, blocksize ≤ blockSize a → st'.selected = some (i, a) →
        (allocate_scan blocksize policy rest (i + 1) st').selected = some (j, blk) →
        ∃ k, j = i + k ∧ (a :: rest)[k]? = some blk ∧ blocksize ≤ blockSize blk := by
      intro st' ha hst' h'
      rcases shift st' h' with h0 | h0
      · rw [hst'] at h0
        simp only [Option.some.injEq, Prod.mk.injEq] at h0
        obtain ⟨rfl, rfl⟩ := h0
        exact ⟨0, rfl, by simp, ha⟩
      · exact h0
    simp only [allocate_scan] at h
    split_ifs at h with hq h1 h2 hd hd
    · simp only [Option.some.injEq, Prod.mk.injEq] at h
      obtain ⟨rfl, rfl⟩ := h
      exact Or.inr ⟨0, rfl, by simp, hq⟩
    · exact Or.inr (here _ hq rfl h)
    · exact shift st h
    · exact Or.inr (here _ hq rfl h)
    · exact shift st h
    · exact shift st h

/-- The node selected by `allocate_memory` is a node of the free list whose block is
at least as large as the request. -/
theorem allocate_scan_selected_mem (blocksize policy : Int) (freelist : List Block)
    (i : Nat) (blk : Block)
    (h : (allocate_scan blocksize policy freelist 0 scan_init).selected = some (i, blk)) :
    freelist[i]? = some blk ∧ blocksize ≤ blockSize blk := by
  rcases allocate_scan_selected_get blocksize policy freelist 0 scan_init i blk h with
    h0 | ⟨k, hk, hget, hsz⟩
  · simp [scan_init] at h0
  · have : i = k := by omega
    subst this
    exact ⟨hget, hsz⟩

theorem list_remove_node_eq_eraseIdx (l : List Block) (i : Nat) :
    list_remove_node l i = l.eraseIdx i := by
  induction l generalizing i with
  | nil => simp [list_remove_node]
  | cons a rest ih =>
    cases i with
    | zero => simp [list_remove_node]
    | succ i => simp [list_remove_node, ih]

theorem list_remove_node_length (l : List Block) (i : Nat) (blk : Block)
    (h : l[i]? = some blk) : (list_remove_node l i).length + 1 = l.length := by
  have hi : i < l.length := (List.getElem?_eq_some.1 h).1
  rw [list_remove_node_eq_eraseIdx, List.length_eraseIdx, if_pos hi]
  omega

theorem list_remove_node_mem (l : List Block) (i : Nat) (x : Block)
    (h : x ∈ list_remove_node l i) : x ∈ l := by
  rw [list_remove_node_eq_eraseIdx] at h
  exact List.mem_of_mem_eraseIdx h

/-- The three insertion disciplines of the free list, as `allocate_memory` and
`deallocate_memory` choose among them, add exactly the new block. -/
theorem policy_insert_perm (policy : Int) (l : List Block) (blk : Block) :
    ∃ l1 l2, l = l1 ++ l2 ∧
      (if policy = 1 then list_add_to_back l blk
        else if policy = 2 then list_add_ascending_by_blocksize l blk
        else list_add_descending_by_blocksize l blk) = l1 ++ blk :: l2 := by
  by_cases h1 : policy = 1
  · exact ⟨l, [], by simp, by simp [h1, list_add_to_back_eq]⟩
  · by_cases h2 : policy = 2
    · obtain ⟨l1, l2, hl, hins, -⟩ := list_add_ascending_by_blocksize_split l blk
      exact ⟨l1, l2, hl, by simp [h2, hins]⟩
    · obtain ⟨l1, l2, hl, hins, -⟩ := list_add_descending_by_blocksize_split l blk
      exact ⟨l1, l2, hl, by simp [h1, h2, hins]⟩

/-- The outcome of `allocate_memory_with` spelled out: either nothing was selected and
the lists are returned as they were, or the selected block was cut at the requested
size, handed to the callee, and the rest of it — if any — was put back on the free
list. -/
theorem allocate_memory_with_eq (add : List Block → Block → Option (List Block))
    (freelist alloclist : List Block) (pid blocksize policy : Int) (r : Outcome)
    (h : allocate_memory_with add freelist alloclist pid blocksize policy = some r) :
    ((allocate_scan blocksize policy freelist 0 scan_init).selected = none ∧
        r = { error := true, freelist := freelist, alloclist := alloclist }) ∨
      ∃ i blk alloclist1,
        (allocate_scan blocksize policy freelist 0 scan_init).selected = some (i, blk) ∧
        add alloclist { start := blk.start, «end» := blk.start + blocksize - 1, pid := pid } =
          some alloclist1 ∧
        r.error = false ∧ r.alloclist = alloclist1 ∧
        r.freelist =
          (if blk.start + blocksize - 1 < blk.«end» then
            (if policy = 1 then
              list_add_to_back (list_remove_node freelist i)
                { start := blk.start + blocksize - 1 + 1, «end» := blk.«end», pid := 0 }
            else if policy = 2 then
              list_add_ascending_by_blocksize (list_remove_node freelist i)
                { start := blk.start + blocksize - 1 + 1, «end» := blk.«end», pid := 0 }
            else
              list_add_descending_by_blocksize (list_remove_node freelist i)
                { start := blk.start + blocksize - 1 + 1, «end» := blk.«end», pid := 0 })
          else list_remove_node freelist i) := by
  unfold allocate_memory_with at h
  cases hsel : (allocate_scan blocksize policy freelist 0 scan_init).selected with
  | none =>
    rw [hsel] at h
    simp only [Option.some.injEq] at h
    exact Or.inl ⟨rfl, h.symm⟩
  | some sel =>
    obtain ⟨i, blk⟩ := sel
    rw [hsel] at h
    simp only at h
    cases hadd : add alloclist
        { start := blk.start, «end» := blk.start + blocksize - 1, pid := pid } with
    | none => rw [hadd] at h; simp at h
    | some alloclist1 =>
      rw [hadd] at h
      refine Or.inr ⟨i, blk, alloclist1, rfl, hadd, ?_⟩
      simp only at h
      split_ifs at h with hfrag h1 h2 <;>
        simp only [Option.some.injEq] at h <;> subst h <;> simp [hfrag, *]

/-- The outcome of `deallocate_memory` spelled out: either no block has the pid and
the lists are returned as they were, or the first block with the pid has left the
allocated list and stands, with owner 0, somewhere in the free list. -/
theorem deallocate_memory_eq (alloclist freelist : List Block) (pid policy : Int) :
    ((∀ b ∈ alloclist, b.pid ≠ pid) ∧
        deallocate_memory alloclist freelist pid policy =
          { error := true, freelist := freelist, alloclist := alloclist }) ∨
      ∃ pre blk post l1 l2, alloclist = pre ++ blk :: post ∧ (∀ x ∈ pre, x.pid ≠ pid) ∧
        blk.pid = pid ∧ freelist = l1 ++ l2 ∧
        deallocate_memory alloclist freelist pid policy =
          { error := false,
            freelist := l1 ++ { start := blk.start, «end» := blk.«end», pid := 0 } :: l2,
            alloclist := pre ++ post } := by
  by_cases h : ∃ b ∈ alloclist, b.pid = pid
  · obtain ⟨pre, blk, post, hl, hpre, hblk, hfind⟩ := deallocate_find_some pid alloclist 0 h
    rw [Nat.zero_add] at hfind
    have hrem : list_remove_node alloclist pre.length = pre ++ post := by
      rw [hl]; exact list_remove_node_append pre post blk _ rfl
    obtain ⟨l1, l2, hf, hins⟩ := policy_insert_perm policy freelist
      { start := blk.start, «end» := blk.«end», pid := 0 }
    refine Or.inr ⟨pre, blk, post, l1, l2, hl, hpre, hblk, hf, ?_⟩
    unfold deallocate_memory
    rw [hfind]
    by_cases h1 : policy = 1
    · simp only [h1, if_true] at hins ⊢
      simp [hins, hrem]
    · by_cases h2 : policy = 2
      · subst h2
        have hins' : list_add_ascending_by_blocksize freelist
            { start := blk.start, «end» := blk.«end», pid := 0 } =
            l1 ++ { start := blk.start, «end» := blk.«end», pid := 0 } :: l2 := by
          simpa using hins
        simp [hins', hrem]
      · simp only [h1, h2, if_false] at hins ⊢
        simp [hins, hrem]
  · have hall : ∀ b ∈ alloclist, b.pid ≠ pid := fun b hb hp => h ⟨b, hb, hp⟩
    refine Or.inl ⟨hall, ?_⟩
    unfold deallocate_memory
    rw [deallocate_find_none pid alloclist 0 hall]

/-! ## Positive block sizes -/

theorem coalese_loop_pos (rest : List Block) (cur : Block) (hcur : 0 < blockSize cur)
    (hrest : ∀ b ∈ rest, 0 < blockSize b) : ∀ b ∈ coalese_loop cur rest, 0 < blockSize b := by
  induction rest generalizing cur with
  | nil => intro b hb; simp [coalese_loop] at hb; subst hb; exact hcur
  | cons nxt rest ih =>
    have hnxt := hrest nxt (List.mem_cons_self _ _)
    have hrest' : ∀ b ∈ rest, 0 < blockSize b := fun b hb => hrest b (List.mem_cons_of_mem _ hb)
    by_cases hm : mergeable cur nxt
    · simp only [coalese_loop, hm, if_true]
      refine ih _ ?_ hrest'
      have hadj := hm.1
      unfold blockSize at hcur hnxt ⊢
      simp only
      omega
    · simp only [coalese_loop, hm, if_false]
      intro b hb
      rcases List.mem_cons.1 hb with rfl | hb
      · exact hcur
      · exact ih nxt hnxt hrest' b hb

theorem list_coalese_nodes_pos (l : List Block) (h : ∀ b ∈ l, 0 < blockSize b) :
    ∀ b ∈ list_coalese_nodes l, 0 < blockSize b := by
  cases l with
  | nil => simp [list_coalese_nodes]
  | cons head rest =>
    exact coalese_loop_pos rest head (h head (List.mem_cons_self _ _))
      (fun b hb => h b (List.mem_cons_of_mem _ hb))

theorem list_add_ascending_by_address_mem (l : List Block) (blk x : Block)
    (h : x ∈ list_add_ascending_by_address l blk) : x ∈ l ∨ x = blk := by
  obtain ⟨l1, l2, hl, hins, -⟩ := list_add_ascending_by_address_split l blk
  rw [hins] at h
  rw [hl]
  simp only [List.mem_append, List.mem_cons] at h ⊢
  tauto

/-- The callee of list.c returns the blocks it was given and the new block. -/
theorem list_c_add_mem (l : List Block) (blk : Block) (l' : List Block)
    (h : list_c_add l blk = some l') : ∀ x ∈ l', x ∈ l ∨ x = blk := by
  intro x hx
  simp only [list_c_add, Option.some.injEq] at h
  subst h
  exact list_add_ascending_by_address_mem l blk x hx

theorem coalese_memory_loop_with_mem (add : List Block → Block → Option (List Block))
    (hadd : ∀ l b l', add l b = some l' → ∀ x ∈ l', x ∈ l ∨ x = b)
    (list temp_list result : List Block)
    (h : coalese_memory_loop_with add list temp_list = some result) :
    ∀ x ∈ result, x ∈ list ∨ x ∈ temp_list := by
  induction list generalizing temp_list with
  | nil =>
    simp only [coalese_memory_loop_with, Option.some.injEq] at h
    subst h
    exact fun x hx => Or.inr hx
  | cons blk list ih =>
    simp only [coalese_memory_loop_with] at h
    cases hcall : add temp_list blk with
    | none => rw [hcall] at h; simp at h
    | some temp_list1 =>
      rw [hcall] at h
      intro x hx
      rcases ih temp_list1 h x hx with hx | hx
      · exact Or.inl (List.mem_cons_of_mem _ hx)
      · rcases hadd temp_list blk temp_list1 hcall x hx with hx | hx
        · exact Or.inr hx
        · exact Or.inl (hx ▸ List.mem_cons_self _ _)

/-- One command keeps every block of both lists of positive size, provided an
allocation asks for at least one unit. -/
theorem main_step_with_pos (add : List Block → Block → Option (List Block))
    (hadd : ∀ l b l', add l b = some l' → ∀ x ∈ l', x ∈ l ∨ x = b)
    (policy : Int) (st st' : Lists) (cmd : Int × Int)
    (hfree : ∀ b ∈ st.FREE_LIST, 0 < blockSize b)
    (halloc : ∀ b ∈ st.ALLOC_LIST, 0 < blockSize b)
    (hcmd : 0 < cmd.1 → 1 ≤ cmd.2)
    (h : main_step_with add policy st cmd = some st') :
    (∀ b ∈ st'.FREE_LIST, 0 < blockSize b) ∧ (∀ b ∈ st'.ALLOC_LIST, 0 < blockSize b) := by
  unfold main_step_with at h
  split_ifs at h with h1 h2
  · -- allocate
    have hsize := hcmd h1.2
    cases hres : allocate_memory_with add st.FREE_LIST st.ALLOC_LIST cmd.1 cmd.2 policy with
    | none => rw [hres] at h; simp at h
    | some r =>
      rw [hres] at h
      simp only [Option.some.injEq] at h
      subst h
      rcases allocate_memory_with_eq add _ _ _ _ _ r hres with
        ⟨-, hr⟩ | ⟨i, blk, alloclist1, hsel, hcall, -, hra, hrf⟩
      · subst hr
        exact ⟨hfree, halloc⟩
      · obtain ⟨hget, -⟩ := allocate_scan_selected_mem cmd.2 policy st.FREE_LIST i blk hsel
        constructor
        · intro b hb
          simp only at hb
          rw [hrf] at hb
          by_cases hfrag : blk.start + cmd.2 - 1 < blk.«end»
          · rw [if_pos hfrag] at hb
            obtain ⟨l1, l2, hl, hins⟩ := policy_insert_perm policy
              (list_remove_node st.FREE_LIST i)
              { start := blk.start + cmd.2 - 1 + 1, «end» := blk.«end», pid := 0 }
            rw [hins] at hb
            have hb' : b ∈ list_remove_node st.FREE_LIST i ∨
                b = { start := blk.start + cmd.2 - 1 + 1, «end» := blk.«end», pid := 0 } := by
              rw [hl]
              simp only [List.mem_append, List.mem_cons] at hb ⊢
              tauto
            rcases hb' with hb' | hb'
            · exact hfree b (list_remove_node_mem _ _ _ hb')
            · subst hb'
              unfold blockSize
              simp only
              omega
          · rw [if_neg hfrag] at hb
            exact hfree b (list_remove_node_mem _ _ _ hb)
        · intro b hb
          simp only at hb
          rw [hra] at hb
          rcases hadd _ _ _ hcall b hb with hb | hb
          · exact halloc b hb
          · subst hb
            unfold blockSize
            simp only
            omega
  · -- deallocate
    simp only [Option.some.injEq] at h
    subst h
    rcases deallocate_memory_eq st.ALLOC_LIST st.FREE_LIST (Int.natAbs cmd.1) policy with
      ⟨-, hres⟩ | ⟨pre, blk, post, l1, l2, hl, -, -, hf, hres⟩
    · rw [hres]
      exact ⟨hfree, halloc⟩
    · rw [hres]
      constructor
      · intro b hb
        simp only [List.mem_append, List.mem_cons] at hb
        have hblk : 0 < blockSize blk := halloc blk (by rw [hl]; simp)
        rcases hb with hb | hb | hb
        · exact hfree b (by rw [hf]; exact List.mem_append_left _ hb)
        · subst hb; exact hblk
        · exact hfree b (by rw [hf]; exact List.mem_append_right _ hb)
      · intro b hb
        refine halloc b ?_
        rw [hl]
        simp only [List.mem_append, List.mem_cons] at hb ⊢
        tauto
  · -- coalesce
    cases hres : coalese_memory_with add st.FREE_LIST with
    | none => rw [hres] at h; simp at h
    | some l =>
      rw [hres] at h
      simp only [Option.some.injEq] at h
      subst h
      refine ⟨?_, halloc⟩
      unfold coalese_memory_with at hres
      cases hloop : coalese_memory_loop_with add st.FREE_LIST [] with
      | none => rw [hloop] at hres; simp at hres
      | some temp_list =>
        rw [hloop] at hres
        simp only [Option.some.injEq] at hres
        subst hres
        refine list_coalese_nodes_pos temp_list ?_
        intro b hb
        rcases coalese_memory_loop_with_mem add hadd _ _ _ hloop b hb with hb | hb
        · exact hfree b hb
        · simp at hb

theorem main_loop_with_pos (add : List Block → Block → Option (List Block))
    (hadd : ∀ l b l', add l b = some l' → ∀ x ∈ l', x ∈ l ∨ x = b)
    (policy : Int) (cmds : List (Int × Int)) (st st' : Lists)
    (hfree : ∀ b ∈ st.FREE_LIST, 0 < blockSize b)
    (halloc : ∀ b ∈ st.ALLOC_LIST, 0 < blockSize b)
    (hcmds : ∀ c ∈ cmds, 0 < c.1 → 1 ≤ c.2)
    (h : main_loop_with add policy st cmds = some st') :
    (∀ b ∈ st'.FREE_LIST, 0 < blockSize b) ∧ (∀ b ∈ st'.ALLOC_LIST, 0 < blockSize b) := by
  induction cmds generalizing st with
  | nil =>
    simp only [main_loop_with, Option.some.injEq] at h
    subst h
    exact ⟨hfree, halloc⟩
  | cons cmd rest ih =>
    simp only [main_loop_with] at h
    cases hstep : main_step_with add policy st cmd with
    | none => rw [hstep] at h; simp at h
    | some st1 =>
      rw [hstep] at h
      obtain ⟨hf1, ha1⟩ := main_step_with_pos add hadd policy st st1 cmd hfree halloc
        (hcmds cmd (List.mem_cons_self _ _)) hstep
      exact ih st1 hf1 ha1 (fun c hc => hcmds c (List.mem_cons_of_mem _ hc)) h

/-! ## With the callee of list.c every command completes -/

theorem allocate_memory_with_list_c_add_total (freelist alloclist : List Block)
    (pid blocksize policy : Int) :
    ∃ r, allocate_memory_with list_c_add freelist alloclist pid blocksize policy = some r := by
  unfold allocate_memory_with
  cases (allocate_scan blocksize policy freelist 0 scan_init).selected with
  | none => exact ⟨_, rfl⟩
  | some sel =>
    obtain ⟨i, blk⟩ := sel
    simp only [list_c_add]
    split_ifs <;> exact ⟨_, rfl⟩

theorem coalese_memory_loop_with_list_c_add_total (list temp_list : List Block) :
    ∃ r, coalese_memory_loop_with list_c_add list temp_list = some r := by
  induction list generalizing temp_list with
  | nil => exact ⟨_, rfl⟩
  | cons blk list ih =>
    simp only [coalese_memory_loop_with, list_c_add]
    exact ih _

theorem main_step_with_list_c_add_total (policy : Int) (st : Lists) (cmd : Int × Int) :
    ∃ st', main_step_with list_c_add policy st cmd = some st' := by
  unfold main_step_with
  split_ifs
  · obtain ⟨r, hr⟩ := allocate_memory_with_list_c_add_total st.FREE_LIST st.ALLOC_LIST
      cmd.1 cmd.2 policy
    rw [hr]
    exact ⟨_, rfl⟩
  · exact ⟨_, rfl⟩
  · obtain ⟨r, hr⟩ := coalese_memory_loop_with_list_c_add_total st.FREE_LIST []
    simp only [coalese_memory_with, hr]
    exact ⟨_, rfl⟩

/-- With the callee of list.c the command loop completes on every command sequence. -/
theorem main_loop_with_list_c_add_total (policy : Int) (cmds : List (Int × Int))
    (st : Lists) : ∃ st', main_loop_with list_c_add policy st cmds = some st' := by
  induction cmds generalizing st with
  | nil => exact ⟨_, rfl⟩
  | cons cmd rest ih =>
    obtain ⟨st1, h1⟩ := main_step_with_list_c_add_total policy st cmd
    simp only [main_loop_with, h1]
    exact ih st1

/-- What the claimed example runs give when the call of mmu.c lines 100 and 160
reaches the definition of list.c: the split of `[0, 9]` at 6, the merge of `[0, 4]`
and `[5, 9]`, a second coalesce that changes nothing, and the first command of a
run. -/
theorem list_c_add_example_runs :
    allocate_memory_with list_c_add [⟨0, 9, 0⟩] [] 1 6 1 =
        some { error := false, freelist := [⟨6, 9, 0⟩], alloclist := [⟨0, 5, 1⟩] } ∧
      coalese_memory_with list_c_add [⟨0, 4, 0⟩, ⟨5, 9, 0⟩] = some [⟨0, 9, 0⟩] ∧
      (coalese_memory_with list_c_add [⟨3, 5, 0⟩, ⟨0, 2, 0⟩]).bind
          (coalese_memory_with list_c_add) =
        coalese_memory_with list_c_add [⟨3, 5, 0⟩, ⟨0, 2, 0⟩] ∧
      main_loop_with list_c_add 1 (main_init 10) [(1, 6)] =
        some { FREE_LIST := [⟨6, 9, 0⟩], ALLOC_LIST := [⟨0, 5, 1⟩] } := by
  decide

/-! ## The runs of the code as written -/

/-- For every allocated list holding a block owned by `pid`, `deallocate_memory`
succeeds, and afterwards no block of the allocated list has owner `pid` exactly when
the list held one block owned by `pid`. -/
theorem deallocate_memory_clears_pid_iff (alloclist freelist : List Block)
    (pid policy : Int) (h : ∃ b ∈ alloclist, b.pid = pid) :
    (deallocate_memory alloclist freelist pid policy).error = false ∧
      ((∀ b ∈ (deallocate_memory alloclist freelist pid policy).alloclist, b.pid ≠ pid) ↔
        alloclist.countP (fun b => decide (b.pid = pid)) = 1) := by
  rcases deallocate_memory_eq alloclist freelist pid policy with
    ⟨hall, -⟩ | ⟨pre, blk, post, l1, l2, hl, hpre, hblk, -, hres⟩
  · obtain ⟨b, hb, hp⟩ := h
    exact absurd hp (hall b hb)
  · rw [hres]
    refine ⟨rfl, ?_⟩
    have hpre0 : pre.countP (fun b => decide (b.pid = pid)) = 0 :=
      List.countP_eq_zero.2 (by simpa using hpre)
    have hcount : alloclist.countP (fun b => decide (b.pid = pid)) =
        post.countP (fun b => decide (b.pid = pid)) + 1 := by
      rw [hl, List.countP_append, List.countP_cons, hpre0]
      simp [hblk]
    rw [hcount]
    constructor
    · intro hnone
      have hpost0 : post.countP (fun b => decide (b.pid = pid)) = 0 :=
        List.countP_eq_zero.2 (by
          intro b hb
          simpa using hnone b (List.mem_append_right _ hb))
      omega
    · intro hone b hb
      have hpost0 : post.countP (fun b => decide (b.pid = pid)) = 0 := by omega
      rcases List.mem_append.1 hb with hb | hb
      · exact hpre b hb
      · simpa using List.countP_eq_zero.1 hpost0 b hb

/-- With the call bound to list.c, the commands "allocate 3 to process 1" twice lead
from the initial lists of a partition of size 10 to an allocated list with two blocks
of owner 1; deallocating process 1 there succeeds and leaves the block `[3, 5]` of
owner 1 in the allocated list. -/
theorem deallocate_memory_leaves_second_block :
    main_loop_with list_c_add 1 (main_init 10) [(1, 3), (1, 3)] =
        some { FREE_LIST := [⟨6, 9, 0⟩], ALLOC_LIST := [⟨0, 2, 1⟩, ⟨3, 5, 1⟩] } ∧
      deallocate_memory [⟨0, 2, 1⟩, ⟨3, 5, 1⟩] [⟨6, 9, 0⟩] 1 1 =
        { error := false, freelist := [⟨6, 9, 0⟩, ⟨0, 2, 0⟩], alloclist := [⟨3, 5, 1⟩] } ∧
      ∃ b ∈ (deallocate_memory [⟨0, 2, 1⟩, ⟨3, 5, 1⟩] [⟨6, 9, 0⟩] 1 1).alloclist,
        b.pid = 1 := by
  decide

/-- Whatever the callee of mmu.c line 100 returns: after a deallocate command the
free list is not shorter than before; an allocate command that fails leaves it
unchanged; an allocate command that completes on a chosen block larger than the
request leaves its length unchanged; and an allocate command that completes on a
chosen block of exactly the requested size shortens it by one. -/
theorem free_list_length_after_command (add : List Block → Block → Option (List Block))
    (freelist alloclist : List Block) (pid blocksize policy : Int) :
    (∀ r, allocate_memory_with add freelist alloclist pid blocksize policy = some r →
        (r.error = true ∧ r.freelist = freelist) ∨
        (r.error = false ∧ ∃ i blk,
          (allocate_scan blocksize policy freelist 0 scan_init).selected = some (i, blk) ∧
          ((blocksize < blockSize blk ∧ r.freelist.length = freelist.length) ∨
            (blocksize = blockSize blk ∧ r.freelist.length + 1 = freelist.length)))) ∧
      freelist.length ≤ (deallocate_memory alloclist freelist pid policy).freelist.length := by
  constructor
  · intro r hr
    rcases allocate_memory_with_eq add freelist alloclist pid blocksize policy r hr with
      ⟨-, hres⟩ | ⟨i, blk, alloclist1, hsel, -, herr, -, hfree⟩
    · subst hres
      exact Or.inl ⟨rfl, rfl⟩
    · obtain ⟨hget, hsz⟩ := allocate_scan_selected_mem blocksize policy freelist i blk hsel
      have hlen := list_remove_node_length freelist i blk hget
      refine Or.inr ⟨herr, i, blk, hsel, ?_⟩
      unfold blockSize at hsz ⊢
      by_cases hfrag : blk.start + blocksize - 1 < blk.«end»
      · left
        refine ⟨by omega, ?_⟩
        rw [hfree, if_pos hfrag]
        obtain ⟨l1, l2, hl, hins⟩ := policy_insert_perm policy (list_remove_node freelist i)
          { start := blk.start + blocksize - 1 + 1, «end» := blk.«end», pid := 0 }
        rw [hins, ← hlen, hl]
        simp only [List.length_append, List.length_cons]
        omega
      · right
        refine ⟨by omega, ?_⟩
        rw [hfree, if_neg hfrag]
        exact hlen
  · rcases deallocate_memory_eq alloclist freelist pid policy with
      ⟨-, hres⟩ | ⟨pre, blk, post, l1, l2, -, -, -, hf, hres⟩
    · rw [hres]
    · rw [hres, hf]
      simp

/-- With the call bound to list.c, allocating 10 from the free list `[[0, 9]]` leaves
an empty free list. -/
theorem allocate_memory_exact_fit_shortens_free_list :
    allocate_memory_with list_c_add [⟨0, 9, 0⟩] [] 1 10 1 =
        some { error := false, freelist := [], alloclist := [⟨0, 9, 1⟩] } ∧
      ([] : List Block).length < [(⟨0, 9, 0⟩ : Block)].length := by
  decide

/-! ## Claims on the list operations -/

/-- C14 (counterexample) — with a negative index on a non-empty list the function
does not return `none`: it detaches and returns the front block. -/
theorem list_remove_at_index_negative_removes_front :
    list_remove_at_index [⟨0, 1, 0⟩, ⟨2, 3, 0⟩] (-1) = (some ⟨0, 1, 0⟩, [⟨2, 3, 0⟩]) ∧
      list_remove_at_index [⟨0, 1, 0⟩, ⟨2, 3, 0⟩] (-1) ≠ (none, [⟨0, 1, 0⟩, ⟨2, 3, 0⟩]) := by
  decide

/-- C14 (amended) — `list_remove_at_index` range behaviour: for every list and every
integer index, the function returns `none` and leaves the list unchanged when the list
is empty or `index >= length`; on a non-empty list with `index <= 0` (negative indices
included) it detaches and returns the front block; and for `0 <= index < length` it
returns the block at that 0-based index and leaves the list with exactly that element
removed. -/
theorem list_remove_at_index_range (l : List Block) (index : Int) :
    (l = [] ∨ (l.length : Int) ≤ index → list_remove_at_index l index = (none, l)) ∧
      (index ≤ 0 → ∀ head rest, l = head :: rest →
        list_remove_at_index l index = (some head, rest)) ∧
      (0 ≤ index → index < l.length →
        ∃ blk, l[index.toNat]? = some blk ∧
          list_remove_at_index l index = (some blk, l.eraseIdx index.toNat)) := by
  refine ⟨?_, ?_, ?_⟩
  · rintro (h | h)
    · subst h; simp [list_remove_at_index]
    · have h0 : 0 ≤ index := le_trans (Int.ofNat_nonneg _) h
      have hlen : l.length ≤ index.toNat := by omega
      rw [list_remove_at_index_of_nonneg l index h0, List.getElem?_eq_none hlen,
        List.eraseIdx_of_length_le hlen]
  · intro h head rest hl
    subst hl
    simp [list_remove_at_index_of_nonpos _ index h]
  · intro h0 hlt
    have hlen : index.toNat < l.length := by omega
    refine ⟨l[index.toNat], List.getElem?_eq_getElem hlen, ?_⟩
    rw [list_remove_at_index_of_nonneg l index h0, List.getElem?_eq_getElem hlen]

/-- C14 (witness) — on a list of three blocks: index 3 and the empty list give `none`,
index -2 detaches the front block, index 1 detaches the middle block. -/
theorem list_remove_at_index_range_witness :
    list_remove_at_index [⟨0, 1, 0⟩, ⟨2, 3, 0⟩, ⟨4, 5, 0⟩] 3 =
        (none, [⟨0, 1, 0⟩, ⟨2, 3, 0⟩, ⟨4, 5, 0⟩]) ∧
      list_remove_at_index [⟨0, 1, 0⟩, ⟨2, 3, 0⟩, ⟨4, 5, 0⟩] (-2) =
        (some ⟨0, 1, 0⟩, [⟨2, 3, 0⟩, ⟨4, 5, 0⟩]) ∧
      ∃ blk, [(⟨0, 1, 0⟩ : Block), ⟨2, 3, 0⟩, ⟨4, 5, 0⟩][(1 : Int).toNat]? = some blk ∧
        list_remove_at_index [⟨0, 1, 0⟩, ⟨2, 3, 0⟩, ⟨4, 5, 0⟩] 1 =
          (some blk, [(⟨0, 1, 0⟩ : Block), ⟨2, 3, 0⟩, ⟨4, 5, 0⟩].eraseIdx (1 : Int).toNat) :=
  ⟨(list_remove_at_index_range [⟨0, 1, 0⟩, ⟨2, 3, 0⟩, ⟨4, 5, 0⟩] 3).1 (Or.inr (by decide)),
   (list_remove_at_index_range [⟨0, 1, 0⟩, ⟨2, 3, 0⟩, ⟨4, 5, 0⟩] (-2)).2.1 (by decide)
     _ _ rfl,
   (list_remove_at_index_range [⟨0, 1, 0⟩, ⟨2, 3, 0⟩, ⟨4, 5, 0⟩] 1).2.2 (by decide)
     (by decide)⟩

/-- C15 — address-ordered insertion: for every list and block,
`list_add_ascending_by_address` of list.c places the new block immediately before the
first existing block whose start is at least the new block's start (at the end if
there is none) and leaves the existing blocks in their prior relative order; and
whenever the list was in ascending order of start before the call, it is in ascending
order of start after it. -/
theorem list_add_ascending_by_address_sorted (l : List Block) (blk : Block) :
    (∃ l1 l2, l = l1 ++ l2 ∧ list_add_ascending_by_address l blk = l1 ++ blk :: l2 ∧
        (∀ x ∈ l1, x.start < blk.start) ∧
        ∀ x, l2.head? = some x → blk.start ≤ x.start) ∧
      (l.Pairwise (fun a b => a.start ≤ b.start) →
        (list_add_ascending_by_address l blk).Pairwise fun a b => a.start ≤ b.start) := by
  obtain ⟨l1, l2, hl, hins, h1, h2⟩ := list_add_ascending_by_address_split l blk
  refine ⟨⟨l1, l2, hl, hins, h1, h2⟩, ?_⟩
  intro hs
  rw [hins]
  exact pairwise_insert_of_split (fun b => b.start) l1 l2 blk (hl ▸ hs)
    (fun x hx => le_of_lt (h1 x hx)) h2

/-- C15 (witness) — inserting `[5,6]` into the starts `[0, 5, 9]` puts it in front of
the existing block that starts at 5. -/
theorem list_add_ascending_by_address_sorted_witness :
    [(⟨0, 4, 1⟩ : Block), ⟨5, 8, 2⟩, ⟨9, 9, 3⟩].Pairwise (fun a b => a.start ≤ b.start) ∧
      list_add_ascending_by_address [⟨0, 4, 1⟩, ⟨5, 8, 2⟩, ⟨9, 9, 3⟩] ⟨5, 6, 7⟩ =
        [⟨0, 4, 1⟩, ⟨5, 6, 7⟩, ⟨5, 8, 2⟩, ⟨9, 9, 3⟩] ∧
      (list_add_ascending_by_address [⟨0, 4, 1⟩, ⟨5, 8, 2⟩, ⟨9, 9, 3⟩] ⟨5, 6, 7⟩).Pairwise
        (fun a b => a.start ≤ b.start) :=
  ⟨by decide, by decide,
   (list_add_ascending_by_address_sorted [⟨0, 4, 1⟩, ⟨5, 8, 2⟩, ⟨9, 9, 3⟩] ⟨5, 6, 7⟩).2
     (by decide)⟩

/-- C16 — size-ordered insertion with ties placed later: for every list sorted
ascending by size, `list_add_ascending_by_blocksize` yields a list sorted ascending by
size in which every existing block behind the new block is strictly larger, so the new
block comes after every existing block of equal size; for every list sorted descending
by size, `list_add_descending_by_blocksize` yields a list sorted descending by size in
which every existing block behind the new block is strictly smaller; in both cases the
existing blocks keep their relative order. -/
theorem list_add_by_blocksize_sorted (l : List Block) (blk : Block) :
    (l.Pairwise (fun a b => blockSize a ≤ blockSize b) →
        ∃ l1 l2, l = l1 ++ l2 ∧ list_add_ascending_by_blocksize l blk = l1 ++ blk :: l2 ∧
          (∀ x ∈ l1, blockSize x ≤ blockSize blk) ∧
          (∀ x ∈ l2, blockSize blk < blockSize x) ∧
          (list_add_ascending_by_blocksize l blk).Pairwise
            fun a b => blockSize a ≤ blockSize b) ∧
      (l.Pairwise (fun a b => blockSize b ≤ blockSize a) →
        ∃ l1 l2, l = l1 ++ l2 ∧ list_add_descending_by_blocksize l blk = l1 ++ blk :: l2 ∧
          (∀ x ∈ l1, blockSize blk ≤ blockSize x) ∧
          (∀ x ∈ l2, blockSize x < blockSize blk) ∧
          (list_add_descending_by_blocksize l blk).Pairwise
            fun a b => blockSize b ≤ blockSize a) := by
  constructor
  · intro hs
    obtain ⟨l1, l2, hl, hins, h1, h2⟩ := list_add_ascending_by_blocksize_split l blk
    have hs2 : l2.Pairwise fun a b => blockSize a ≤ blockSize b :=
      (List.pairwise_append.1 (hl ▸ hs)).2.1
    refine ⟨l1, l2, hl, hins, h1,
      lt_of_head_lt_of_pairwise blockSize l2 (blockSize blk) hs2 h2, ?_⟩
    rw [hins]
    exact pairwise_insert_of_split blockSize l1 l2 blk (hl ▸ hs) h1
      (fun x hx => le_of_lt (h2 x hx))
  · intro hs
    obtain ⟨l1, l2, hl, hins, h1, h2⟩ := list_add_descending_by_blocksize_split l blk
    have hs' : (l1 ++ l2).Pairwise fun a b => -blockSize a ≤ -blockSize b := by
      rw [← hl]
      exact hs.imp (fun h => neg_le_neg h)
    have hl2 := lt_of_head_lt_of_pairwise (fun b => -blockSize b) l2 (-blockSize blk)
      (List.pairwise_append.1 hs').2.1 (fun x hx => neg_lt_neg (h2 x hx))
    refine ⟨l1, l2, hl, hins, h1, fun x hx => neg_lt_neg_iff.1 (hl2 x hx), ?_⟩
    rw [hins]
    have := pairwise_insert_of_split (fun b => -blockSize b) l1 l2 blk hs'
      (fun x hx => neg_le_neg (h1 x hx)) (fun x hx => le_of_lt (neg_lt_neg (h2 x hx)))
    exact this.imp (fun h => neg_le_neg_iff.1 h)

/-- C16 (witness) — a block of size 7 inserted into the ascending sizes `[3, 7, 12]`
lands behind the existing block of size 7, and inserted into the descending sizes
`[12, 7, 3]` lands behind the existing block of size 7 as well. -/
theorem list_add_by_blocksize_sorted_witness :
    ([(⟨0, 2, 0⟩ : Block), ⟨3, 9, 0⟩, ⟨10, 21, 0⟩].Pairwise
        (fun a b => blockSize a ≤ blockSize b) ∧
      list_add_ascending_by_blocksize [⟨0, 2, 0⟩, ⟨3, 9, 0⟩, ⟨10, 21, 0⟩] ⟨30, 36, 0⟩ =
        [⟨0, 2, 0⟩, ⟨3, 9, 0⟩, ⟨30, 36, 0⟩, ⟨10, 21, 0⟩] ∧
      ∃ l1 l2, [(⟨0, 2, 0⟩ : Block), ⟨3, 9, 0⟩, ⟨10, 21, 0⟩] = l1 ++ l2 ∧
        list_add_ascending_by_blocksize [⟨0, 2, 0⟩, ⟨3, 9, 0⟩, ⟨10, 21, 0⟩] ⟨30, 36, 0⟩ =
          l1 ++ ⟨30, 36, 0⟩ :: l2 ∧
        (∀ x ∈ l1, blockSize x ≤ blockSize ⟨30, 36, 0⟩) ∧
        (∀ x ∈ l2, blockSize ⟨30, 36, 0⟩ < blockSize x) ∧
        (list_add_ascending_by_blocksize [⟨0, 2, 0⟩, ⟨3, 9, 0⟩, ⟨10, 21, 0⟩]
          ⟨30, 36, 0⟩).Pairwise fun a b => blockSize a ≤ blockSize b) ∧
    ([(⟨10, 21, 0⟩ : Block), ⟨3, 9, 0⟩, ⟨0, 2, 0⟩].Pairwise
        (fun a b => blockSize b ≤ blockSize a) ∧
      list_add_descending_by_blocksize [⟨10, 21, 0⟩, ⟨3, 9, 0⟩, ⟨0, 2, 0⟩] ⟨30, 36, 0⟩ =
        [⟨10, 21, 0⟩, ⟨3, 9, 0⟩, ⟨30, 36, 0⟩, ⟨0, 2, 0⟩] ∧
      ∃ l1 l2, [(⟨10, 21, 0⟩ : Block), ⟨3, 9, 0⟩, ⟨0, 2, 0⟩] = l1 ++ l2 ∧
        list_add_descending_by_blocksize [⟨10, 21, 0⟩, ⟨3, 9, 0⟩, ⟨0, 2, 0⟩] ⟨30, 36, 0⟩ =
          l1 ++ ⟨30, 36, 0⟩ :: l2 ∧
        (∀ x ∈ l1, blockSize ⟨30, 36, 0⟩ ≤ blockSize x) ∧
        (∀ x ∈ l2, blockSize x < blockSize ⟨30, 36, 0⟩) ∧
        (list_add_descending_by_blocksize [⟨10, 21, 0⟩, ⟨3, 9, 0⟩, ⟨0, 2, 0⟩]
          ⟨30, 36, 0⟩).Pairwise fun a b => blockSize b ≤ blockSize a) :=
  ⟨⟨by decide, by decide,
    (list_add_by_blocksize_sorted [⟨0, 2, 0⟩, ⟨3, 9, 0⟩, ⟨10, 21, 0⟩] ⟨30, 36, 0⟩).1
      (by decide)⟩,
   ⟨by decide, by decide,
    (list_add_by_blocksize_sorted [⟨10, 21, 0⟩, ⟨3, 9, 0⟩, ⟨0, 2, 0⟩] ⟨30, 36, 0⟩).2
      (by decide)⟩⟩

/-! ## Best-fit against first-fit on a size-sorted free list -/

/-- C19 (evaluation) — on a free list sorted by size best-fit must choose the block
that first-fit chooses.  The free list holding the single block `[0, 2147483646]` is
sorted by size; with a request of size `0` the first-fit search selects that block and
the best-fit search selects nothing. -/
theorem best_fit_differs_from_first_fit_at_int_max :
    [(⟨0, 2147483646, 0⟩ : Block)].Pairwise (fun a b => blockSize a ≤ blockSize b) ∧
      (allocate_scan 0 1 [⟨0, 2147483646, 0⟩] 0 scan_init).selected =
        some (0, ⟨0, 2147483646, 0⟩) ∧
      (allocate_scan 0 2 [⟨0, 2147483646, 0⟩] 0 scan_init).selected = none := by
  decide

/-- Best-fit against first-fit below the initial `best_diff`: on a free list sorted
ascending by size in which no block exceeds the request by `2147483647` or more, the
best-fit search selects the same list position (and block) as the first-fit search,
and both select nothing when no block qualifies. -/
theorem best_fit_eq_first_fit_of_sorted (freelist : List Block) (blocksize : Int)
    (hsorted : freelist.Pairwise fun a b => blockSize a ≤ blockSize b)
    (hrange : ∀ b ∈ freelist, blockSize b - blocksize < 2147483647) :
    (allocate_scan blocksize 2 freelist 0 scan_init).selected =
        (allocate_scan blocksize 1 freelist 0 scan_init).selected ∧
      ((allocate_scan blocksize 1 freelist 0 scan_init).selected = none ↔
        ∀ b ∈ freelist, blockSize b < blocksize) := by
  by_cases hq : ∃ b ∈ freelist, blocksize ≤ blockSize b
  · obtain ⟨j1, b1, hsel1, hget1, hsz1, hbefore1⟩ :=
      allocate_scan_first blocksize freelist 0 scan_init hq
    obtain ⟨b, hb, hbq⟩ := hq
    obtain ⟨j2, b2, hsel2, hget2, hsz2, -, hmin2, hbefore2⟩ :=
      allocate_scan_best blocksize freelist 0 scan_init
        ⟨b, hb, hbq, by simpa [scan_init] using hrange b hb⟩
    have hj : j2 = j1 := by
      rcases lt_trichotomy j2 j1 with h | h | h
      · exact absurd hsz2 (not_le.2 (hbefore1 j2 h b2 hget2))
      · exact h
      · have hlt := hbefore2 j1 h b1 hget1 hsz1
        have hj2 : j2 < freelist.length := (List.getElem?_eq_some.1 hget2).1
        have hj1 : j1 < freelist.length := lt_trans h hj2
        have hle := List.pairwise_iff_getElem.1 hsorted j1 j2 hj1 hj2 h
        have e1 : freelist[j1] = b1 := (List.getElem?_eq_some.1 hget1).2
        have e2 : freelist[j2] = b2 := (List.getElem?_eq_some.1 hget2).2
        rw [e1, e2] at hle
        exact absurd hlt (not_lt.2 hle)
    subst hj
    have hb12 : b2 = b1 := by
      rw [hget2] at hget1
      exact Option.some.inj hget1
    subst hb12
    refine ⟨by rw [hsel1, hsel2], ?_⟩
    rw [hsel1]
    constructor
    · intro h; exact absurd h (by simp)
    · intro hall; exact absurd hbq (not_le.2 (hall b hb))
  · have hall : ∀ b ∈ freelist, blockSize b < blocksize := by
      intro b hb
      by_contra hcon
      exact hq ⟨b, hb, not_lt.1 hcon⟩
    rw [allocate_scan_first_none blocksize freelist 0 scan_init hall 2,
      allocate_scan_first_none blocksize freelist 0 scan_init hall 1]
    exact ⟨rfl, fun _ => hall, fun _ => rfl⟩

/-! ## Claims that need `coalese_memory` or the helper of mmu.c to return -/

/-- C11 (evaluation) — the coalescer is asked to turn the free blocks `[0, 4]` and
`[5, 9]` into the single block `[0, 9]`.  For every bound on the call depth
`coalese_memory` produces no list on that input. -/
theorem coalese_memory_adjacent_never_returns (fuel : Nat) :
    coalese_memory fuel [⟨0, 4, 0⟩, ⟨5, 9, 0⟩] = none :=
  coalese_memory_of_cons fuel _ _

/-- C17 (evaluation) — totality asks `allocate_memory`, `coalese_memory` and the
address-ordered insertion they call to terminate with a result.  For every bound on
the call depth the insertion of mmu.c has no result on any list and block, and neither
have `allocate_memory` on "allocate 6 from `[0, 9]`" nor `coalese_memory` on the single
free block `[0, 9]`. -/
theorem core_operations_do_not_return (fuel : Nat) :
    (∀ l blk, mmu_list_add_ascending_by_address fuel l blk = none) ∧
      (∀ policy, allocate_memory fuel [⟨0, 9, 0⟩] [] 1 6 policy = none) ∧
      coalese_memory fuel [⟨0, 9, 0⟩] = none := by
  refine ⟨mmu_list_add_ascending_by_address_eq_none fuel, ?_, coalese_memory_of_cons fuel _ _⟩
  intro policy
  obtain ⟨sel, hsel⟩ := allocate_scan_selects 6 policy [⟨0, 9, 0⟩] (by decide)
    ⟨⟨0, 9, 0⟩, by simp, by decide⟩
  exact allocate_memory_of_selected fuel [⟨0, 9, 0⟩] [] 1 6 policy sel hsel

/-- C20 (evaluation) — idempotence asks that coalescing the result of a coalesce gives
that result again.  On the well-formed free list `[[3, 5], [0, 2]]` the first
application already has no result, for every bound on the call depth, and so has the
composition of the two. -/
theorem coalese_memory_twice_never_returns (fuel : Nat) :
    coalese_memory fuel [⟨3, 5, 0⟩, ⟨0, 2, 0⟩] = none ∧
      (coalese_memory fuel [⟨3, 5, 0⟩, ⟨0, 2, 0⟩]).bind (coalese_memory fuel) = none := by
  simp [coalese_memory_of_cons]

/-! ## Claims on what a command does to the two lists -/

/-- C18 (counterexample) — two runs that end with a block of size 0.  With
`PARTITION_SIZE = 0` the initial free block is `[0, -1]`, and it is still there after
the command "deallocate process 1" (which the code as written completes).  With
`PARTITION_SIZE = 10` and the call bound to list.c, the command "allocate 0 to process
1" completes with the allocated block `[0, -1]`. -/
theorem block_of_size_zero_after_command :
    (main_loop 0 1 (main_init 0) [(-1, 0)] =
        some { FREE_LIST := [⟨0, -1, 0⟩], ALLOC_LIST := [] } ∧
      ¬ 0 < blockSize ⟨0, -1, 0⟩) ∧
    (main_loop_with list_c_add 1 (main_init 10) [(1, 0)] =
        some { FREE_LIST := [⟨0, 9, 0⟩], ALLOC_LIST := [⟨0, -1, 1⟩] } ∧
      ¬ 0 < blockSize ⟨0, -1, 1⟩) := by
  decide

/-- C18 (amended) — block size is positive: for `PARTITION_SIZE >= 1`, every policy
and every command sequence in which each allocate command asks for at least one unit,
run from the initial state (free list = the single block `[0, PARTITION_SIZE-1]`,
empty allocated list), every block of the free list and of the allocated list
satisfies `end - start + 1 > 0` after the commands, whatever the callee of mmu.c lines
100 and 160 is, as long as it returns the blocks it was given together with the new
block. -/
theorem main_loop_with_block_sizes_positive
    (add : List Block → Block → Option (List Block))
    (hadd : ∀ l b l', add l b = some l' → ∀ x ∈ l', x ∈ l ∨ x = b)
    (policy PARTITION_SIZE : Int) (cmds : List (Int × Int)) (st : Lists)
    (hsize : 1 ≤ PARTITION_SIZE)
    (hcmds : ∀ c ∈ cmds, 0 < c.1 → 1 ≤ c.2)
    (hrun : main_loop_with add policy (main_init PARTITION_SIZE) cmds = some st) :
    (∀ b ∈ st.FREE_LIST, 0 < blockSize b) ∧ (∀ b ∈ st.ALLOC_LIST, 0 < blockSize b) := by
  refine main_loop_with_pos add hadd policy cmds (main_init PARTITION_SIZE) st ?_ ?_ hcmds hrun
  · intro b hb
    simp only [main_init, list_add_to_front, List.mem_singleton] at hb
    subst hb
    unfold blockSize
    simp only
    omega
  · intro b hb
    simp [main_init] at hb

/-- C18 (witness) — with the call bound to list.c, under best-fit on a partition of
size 10: allocate 3 to process 1, 4 to process 2, free process 1, allocate 3 to
process 3 (an exact fit), free process 2, coalesce. -/
theorem main_loop_with_block_sizes_positive_witness :
    (∀ l b l', list_c_add l b = some l' → ∀ x ∈ l', x ∈ l ∨ x = b) ∧
      (1 : Int) ≤ 10 ∧
      (∀ c ∈ [((1 : Int), (3 : Int)), (2, 4), (-1, 0), (3, 3), (-2, 0), (-99999, 0)],
        0 < c.1 → 1 ≤ c.2) ∧
      main_loop_with list_c_add 2 (main_init 10)
          [(1, 3), (2, 4), (-1, 0), (3, 3), (-2, 0), (-99999, 0)] =
        some { FREE_LIST := [⟨0, 6, 0⟩], ALLOC_LIST := [⟨7, 9, 3⟩] } ∧
      ((∀ b ∈ [(⟨0, 6, 0⟩ : Block)], 0 < blockSize b) ∧
        ∀ b ∈ [(⟨7, 9, 3⟩ : Block)], 0 < blockSize b) :=
  ⟨list_c_add_mem, by decide, by decide, by decide,
   main_loop_with_block_sizes_positive list_c_add list_c_add_mem 2 10
     [(1, 3), (2, 4), (-1, 0), (3, 3), (-2, 0), (-99999, 0)]
     { FREE_LIST := [⟨0, 6, 0⟩], ALLOC_LIST := [⟨7, 9, 3⟩] }
     (by decide) (by decide) (by decide)⟩

end Lab8
